import Mathlib

set_option linter.unusedVariables false

/-!
Verification of the Unison tree-sitter external scanner (src/src/scanner.c).

The scanner is embedded shallowly: the lexer is a zipper over the input
(`prev` holds the consumed characters in reverse, `rest` the remaining ones),
the requested-symbol array is a function `Sym → Bool`, and the indent stack is
a list of naturals (each entry a 16-bit value).  Every scanner function is a
pure function `SymSet → St → Result × St` mirroring the C control flow; the C
macro `SHORT_SCANNER` becomes the `andThen` combinator and the frequent
pattern `res = f(...); SHORT_SCANNER; return res_fail;` becomes `or_fail`.
-/

namespace Scanner

/-- The symbol enumeration of scanner.c (`Sym`); FAIL is the internal sentinel. -/
inductive Sym where
  | SEMICOLON
  | START
  | END
  | DOT
  | WHERE
  | VARSYM
  | COMMENT
  | FOLD
  | COMMA
  | IN
  | INDENT
  | EMPTY
  | FAIL
deriving DecidableEq, Repr

/-- The requested-symbol array passed by the host parser (`const bool *syms`). -/
def SymSet := Sym → Bool

/-- `all_syms`: every symbol from SEMICOLON up to and including EMPTY is valid. -/
def all_syms (syms : SymSet) : Bool :=
  syms .SEMICOLON && syms .START && syms .END && syms .DOT && syms .WHERE &&
  syms .VARSYM && syms .COMMENT && syms .FOLD && syms .COMMA && syms .IN &&
  syms .INDENT && syms .EMPTY

/-- `after_error`: the parser is recovering from an error (see scanner.c). -/
def after_error (syms : SymSet) : Bool := all_syms syms

/-- The C `Result` struct: a symbol plus a `finished` flag. -/
structure Result where
  sym : Sym
  finished : Bool
deriving DecidableEq, Repr

def res_cont : Result := ⟨.FAIL, false⟩
def res_finish (t : Sym) : Result := ⟨t, true⟩
def res_fail : Result := ⟨.FAIL, true⟩

/--
The lexer-facing part of the scanner state.  `prev` is the reversed list of
characters already consumed, `rest` the characters still ahead; `marked`
records `prev.length` at the last `mark_end` call; `indents` is the indent
stack, bottom first (C: `indent_vec`, with `VEC_BACK` the last element).
-/
structure St where
  prev : List Char
  rest : List Char
  marked : Option Nat
  indents : List Nat
deriving DecidableEq, Repr

/-- `state->lexer->lookahead`: the next character, 0 at end of input. -/
def peekc (s : St) : Char := s.rest.headD '\x00'

/-- `state->lexer->eof`. -/
def isEof (s : St) : Bool := s.rest.isEmpty

/-- `S_ADVANCE` / `S_SKIP`: consume one character (no-op at end of input). -/
def advance (s : St) : St :=
  match s.rest with
  | [] => s
  | c :: t => { s with prev := c :: s.prev, rest := t }

/-- `MARK` / `mark_end`: remember the current position as the token end. -/
def mark (s : St) : St := { s with marked := some s.prev.length }

/-- `get_column`: characters since the last newline. -/
def column (s : St) : Nat :=
  if isEof s then 0 else (s.prev.takeWhile (fun c => c ≠ '\n')).length

/-- `push`: append one indent on top of the stack (`VEC_PUSH`). -/
def push (ind : Nat) (s : St) : St := { s with indents := s.indents ++ [ind] }

/-- `indent_exists`. -/
def indent_exists (s : St) : Bool := !s.indents.isEmpty

/-- `pop`: drop the top indent; no-op on an empty stack. -/
def pop (s : St) : St :=
  if indent_exists s then { s with indents := s.indents.dropLast } else s

/-- `VEC_BACK` of the indent stack (only read under `indent_exists`). -/
def back (s : St) : Nat := s.indents.getLastD 0

/-- `keep_layout`. -/
def keep_layout (indent : Nat) (s : St) : Bool :=
  indent_exists s && decide (back s ≤ indent)

/-- `same_indent`. -/
def same_indent (indent : Nat) (s : St) : Bool :=
  indent_exists s && decide (indent = back s)

/-- `smaller_indent`. -/
def smaller_indent (indent : Nat) (s : St) : Bool :=
  indent_exists s && decide (indent < back s)

/-- `indent_lesseq`. -/
def indent_lesseq (indent : Nat) (s : St) : Bool :=
  indent_exists s && decide (indent ≤ back s)

/-- The opening brace character (written by code point to keep it out of text). -/
def lbrace : Char := Char.ofNat 123

/-- The closing brace character. -/
def rbrace : Char := Char.ofNat 125

/-- The backtick character. -/
def backq : Char := Char.ofNat 96

/-- `isws` (WS_CASES): space, form feed, newline, carriage return, tab, vertical tab. -/
def isws (c : Char) : Bool :=
  c = ' ' || c = '\x0c' || c = '\n' || c = '\r' || c = '\t' || c = '\x0b'

/-- The C library `iswspace` as it behaves in the default "C" locale: exactly
the six standard whitespace characters (used by the `dot` rule). -/
def iswspace (c : Char) : Bool :=
  c = ' ' || c = '\x0c' || c = '\n' || c = '\r' || c = '\t' || c = '\x0b'

/-- `token_end`: whitespace, NUL or a bracket terminates a token. -/
def token_end (c : Char) : Bool :=
  isws c || c = '\x00' || c = '(' || c = ')' || c = '[' || c = ']'

/-- `is_newline` (NEWLINE_CASES). -/
def is_newline (c : Char) : Bool := c = '\n' || c = '\r' || c = '\x0c'

/-- `symbolic` (SYMBOLIC_CASES). -/
def symbolic (c : Char) : Bool :=
  c = '!' || c = '#' || c = '$' || c = '%' || c = '&' || c = '*' || c = '+' ||
  c = '.' || c = '/' || c = '<' || c = '>' || c = '?' || c = '^' || c = ':' ||
  c = '=' || c = '-' || c = '~' || c = '@' || c = '\\' || c = '|'

/-- `seq`: match the characters of `cs` one by one, advancing on each match;
on the first mismatch stop (already-consumed characters are not rewound). -/
def seq : List Char → St → Bool × St
  | [], s => (true, s)
  | c :: cs, s => if peekc s = c then seq cs (advance s) else (false, s)

/-- `token`: `seq` succeeds and the next character is a token terminator. -/
def token (cs : List Char) (s : St) : Bool × St :=
  ((seq cs s).1 && token_end (peekc (seq cs s).2), (seq cs s).2)

/-- `skipspace`: skip blanks and tabs. -/
def skipspace (s : St) : St :=
  match h : s.rest with
  | c :: _ => if c = ' ' ∨ c = '\t' then skipspace (advance s) else s
  | [] => s
termination_by s.rest.length
decreasing_by simp [advance, h]

/-- `count_indent`: advance over whitespace counting the indentation of the
next nonempty line; newlines reset the count, a tab counts as 8 columns.
The counter is a C `uint32_t`. -/
def count_indent (s : St) (indent : Nat) : Nat × St :=
  match h : s.rest with
  | c :: _ =>
    if is_newline c then count_indent (advance s) 0
    else if c = ' ' then count_indent (advance s) ((indent + 1) % 2 ^ 32)
    else if c = '\t' then count_indent (advance s) ((indent + 8) % 2 ^ 32)
    else (indent, s)
  | [] => (indent, s)
termination_by s.rest.length
decreasing_by all_goals simp [advance, h]

/-- `SHORT_SCANNER` sequencing: keep a finished result, otherwise continue. -/
def andThen (p : Result × St) (k : St → Result × St) : Result × St :=
  if p.1.finished then p else k p.2

/-- The pattern `res = f(...); SHORT_SCANNER; return res_fail;`. -/
def or_fail (p : Result × St) : Result × St :=
  if p.1.finished then p else (res_fail, p.2)

/-- `finish_if_valid`. -/
def finish_if_valid (syms : SymSet) (t : Sym) (s : St) : Result × St :=
  if syms t then (res_finish t, s) else (res_cont, s)

/-- `layout_end`: if END is requested, pop the stack and emit END. -/
def layout_end (syms : SymSet) (s : St) : Result × St :=
  if syms .END then (res_finish .END, pop s) else (res_cont, s)

/-- `end_or_semicolon`: try `layout_end`, then SEMICOLON if requested. -/
def end_or_semicolon (syms : SymSet) (s : St) : Result × St :=
  andThen (layout_end syms s) (finish_if_valid syms .SEMICOLON)

/-- The `eof` rule: at end of input emit EMPTY if requested, otherwise try
`end_or_semicolon`, otherwise fail; elsewhere continue. -/
def eof (syms : SymSet) (s : St) : Result × St :=
  if isEof s then
    if syms .EMPTY then (res_finish .EMPTY, s)
    else or_fail (end_or_semicolon syms s)
  else (res_cont, s)

/-- The `dot` rule. -/
def dot (syms : SymSet) (s : St) : Result × St :=
  if syms .DOT then
    if peekc s = '.' then
      if syms .VARSYM && iswspace (peekc (advance s)) then (res_finish .VARSYM, advance s)
      else (res_finish .DOT, mark (advance s))
    else (res_cont, s)
  else (res_cont, s)

/-- The `while(!is_eof(state)) S_ADVANCE;` loop of `fold` and `minus`. -/
def advance_to_eof (s : St) : St :=
  match h : s.rest with
  | _ :: _ => advance_to_eof (advance s)
  | [] => s
termination_by s.rest.length
decreasing_by simp [advance, h]

/-- The `fold` rule: `---` consumes the rest of the file and emits FOLD. -/
def fold (s : St) : Result × St :=
  if (seq ['-', '-', '-'] s).1 then
    (res_finish .FOLD, mark (advance_to_eof (seq ['-', '-', '-'] s).2))
  else (res_cont, (seq ['-', '-', '-'] s).2)

/-- `inline_comment`: consume to the end of the line and emit COMMENT. -/
def inline_comment (s : St) : Result × St :=
  match h : s.rest with
  | c :: _ =>
    if is_newline c ∨ c = '\x00' then (res_finish .COMMENT, mark s)
    else inline_comment (advance s)
  | [] => (res_finish .COMMENT, mark s)
termination_by s.rest.length
decreasing_by simp [advance, h]

/-- The `minus` rule: two dashes start an inline comment; three dashes at the
end of a line are a fold, otherwise `minus` fails. -/
def minus (s : St) : Result × St :=
  if !(seq ['-', '-'] s).1 then (res_cont, (seq ['-', '-'] s).2)
  else if peekc (seq ['-', '-'] s).2 = '-' then
    if isEof (advance (seq ['-', '-'] s).2) ||
        is_newline (peekc (advance (seq ['-', '-'] s).2)) then
      (res_finish .FOLD, mark (advance_to_eof (advance (seq ['-', '-'] s).2)))
    else (res_fail, advance (seq ['-', '-'] s).2)
  else inline_comment (seq ['-', '-'] s).2

/-- `multiline_comment_success`. -/
def multiline_comment_success (s : St) : Result × St :=
  (res_finish .COMMENT, mark s)

theorem advance_rest_le (s : St) : (advance s).rest.length ≤ s.rest.length := by
  cases h : s.rest <;> simp [advance, h]

theorem advance_rest_lt (s : St) (h : s.rest ≠ []) :
    (advance s).rest.length < s.rest.length := by
  cases h2 : s.rest <;> simp_all [advance]

/-- `multiline_comment`: the nested block-comment loop.  `level` is a C
`uint16_t` counting the currently open nested comments. -/
def multiline_comment (syms : SymSet) (level : Nat) (s : St) : Result × St :=
  match h : s.rest with
  | c :: _ =>
    if c = lbrace then
      if peekc (advance s) = '-' then
        multiline_comment syms ((level + 1) % 65536) (advance (advance s))
      else multiline_comment syms level (advance s)
    else if c = '-' then
      if peekc (advance s) = rbrace then
        if level = 0 then multiline_comment_success (advance (advance s))
        else multiline_comment syms (level - 1) (advance (advance s))
      else multiline_comment syms level (advance s)
    else if c = '\x00' then or_fail (eof syms s)
    else multiline_comment syms level (advance s)
  | [] => or_fail (eof syms s)
termination_by s.rest.length
decreasing_by
  all_goals
    have h2 := advance_rest_le (advance s)
    have h3 : (advance s).rest.length < s.rest.length := advance_rest_lt s (by simp [h])
    omega

/-- The `brace` rule: a block comment must start with an open brace and a dash. -/
def brace (syms : SymSet) (s : St) : Result × St :=
  if peekc s ≠ lbrace then (res_fail, s)
  else if peekc (advance s) ≠ '-' then (res_fail, advance s)
  else multiline_comment syms 0 (advance (advance s))

/-- The `comment` dispatcher. -/
def comment (syms : SymSet) (s : St) : Result × St :=
  if peekc s = '-' then or_fail (minus s)
  else if peekc s = lbrace then or_fail (brace syms s)
  else (res_cont, s)

/-- The `where` rule. -/
def where_ (syms : SymSet) (s : St) : Result × St :=
  if (token ['w', 'h', 'e', 'r', 'e'] s).1 then
    if syms .WHERE then (res_finish .WHERE, mark (token ['w', 'h', 'e', 'r', 'e'] s).2)
    else layout_end syms (token ['w', 'h', 'e', 'r', 'e'] s).2
  else (res_cont, (token ['w', 'h', 'e', 'r', 'e'] s).2)

/-- The `in` rule: pops the stack and emits IN. -/
def in_ (syms : SymSet) (s : St) : Result × St :=
  if syms .IN then
    if (token ['i', 'n'] s).1 then (res_finish .IN, pop (mark (token ['i', 'n'] s).2))
    else (res_cont, (token ['i', 'n'] s).2)
  else (res_cont, s)

/-- The `else` rule. -/
def else_ (syms : SymSet) (s : St) : Result × St :=
  if (token ['e', 'l', 's', 'e'] s).1 then layout_end syms (token ['e', 'l', 's', 'e'] s).2
  else (res_cont, (token ['e', 'l', 's', 'e'] s).2)

/-- `close_layout_in_list`: `]` may end a layout, `,` is consumed and either
emits COMMA or ends a layout (or fails with the comma already consumed). -/
def close_layout_in_list (syms : SymSet) (s : St) : Result × St :=
  if peekc s = ']' then
    if syms .END then (res_finish .END, pop s) else (res_cont, s)
  else if peekc s = ',' then
    let s1 := advance s
    if syms .COMMA then (res_finish .COMMA, mark s1)
    else or_fail (layout_end syms s1)
  else (res_cont, s)

/-- `inline_tokens`. -/
def inline_tokens (syms : SymSet) (s : St) : Result × St :=
  if peekc s = 'w' then or_fail (where_ syms s)
  else if peekc s = 'i' then or_fail (in_ syms s)
  else if peekc s = 'e' then or_fail (else_ syms s)
  else if peekc s = ')' then or_fail (layout_end syms s)
  else close_layout_in_list syms s

/-- `layout_start`: push the column (truncated to 16 bits) and emit START. -/
def layout_start (syms : SymSet) (col : Nat) (s : St) : Result × St :=
  if syms .START then (res_finish .START, push (col % 65536) s)
  else (res_cont, s)

/-- `post_end_semicolon`. -/
def post_end_semicolon (syms : SymSet) (col : Nat) (s : St) : Result × St :=
  if syms .SEMICOLON && indent_lesseq col s then (res_finish .SEMICOLON, s)
  else (res_cont, s)

/-- `repeat_end`. -/
def repeat_end (syms : SymSet) (col : Nat) (s : St) : Result × St :=
  if syms .END && smaller_indent col s then layout_end syms s
  else (res_cont, s)

/-- `newline_semicolon`. -/
def newline_semicolon (syms : SymSet) (indent : Nat) (s : St) : Result × St :=
  if syms .SEMICOLON && same_indent indent s then (res_finish .SEMICOLON, s)
  else (res_cont, s)

/-- `dedent`. -/
def dedent (syms : SymSet) (indent : Nat) (s : St) : Result × St :=
  if smaller_indent indent s then layout_end syms s else (res_cont, s)

/-- `newline_indent`. -/
def newline_indent (syms : SymSet) (indent : Nat) (s : St) : Result × St :=
  andThen (dedent syms indent s) fun s1 =>
  andThen (close_layout_in_list syms s1) fun s2 =>
  newline_semicolon syms indent s2

/-- `newline_token`. -/
def newline_token (syms : SymSet) (s : St) : Result × St :=
  if peekc s = '-' then minus s
  else if symbolic (peekc s) || peekc s = backq then (res_fail, s)
  else if peekc s = 'i' then in_ syms s
  else (res_cont, s)

/-- `newline`. -/
def newline (syms : SymSet) (indent : Nat) (s : St) : Result × St :=
  andThen (eof syms s) fun s1 =>
  andThen (comment syms s1) fun s2 =>
  andThen (newline_token syms s2) fun s3 =>
  newline_indent syms indent s3

/-- `immediate`. -/
def immediate (syms : SymSet) (col : Nat) (s : St) : Result × St :=
  andThen (layout_start syms col s) fun s1 =>
  andThen (post_end_semicolon syms col s1) fun s2 =>
  andThen (repeat_end syms col s2) fun s3 =>
  inline_tokens syms s3

/-- `init`: eof check, error-recovery check, `dot`, and `fold` when requested. -/
def init (syms : SymSet) (s : St) : Result × St :=
  andThen (eof syms s) fun s1 =>
  if after_error syms then (res_fail, s1)
  else
    andThen (dot syms s1) fun s2 =>
    if syms .FOLD then andThen (fold s2) (fun s3 => (res_cont, s3))
    else (res_cont, s2)

/-- `scan_main`. -/
def scan_main (syms : SymSet) (s : St) : Result × St :=
  andThen (eof syms (skipspace s)) fun s2 =>
  if is_newline (peekc (mark s2)) then
    newline syms (count_indent (advance (mark s2)) 0).1
      (count_indent (advance (mark s2)) 0).2
  else immediate syms (column (mark s2)) (mark s2)

/-- `scan_all`. -/
def scan_all (syms : SymSet) (s : St) : Result × St :=
  andThen (init syms s) (scan_main syms)

/-- `eval` + the `scan` entry point: a finished non-FAIL result is a success
and its symbol is reported to the parser. -/
def scan (syms : SymSet) (s : St) : Bool × Option Sym × St :=
  if (scan_all syms s).1.finished && !((scan_all syms s).1.sym = Sym.FAIL : Bool) then
    (true, some (scan_all syms s).1.sym, (scan_all syms s).2)
  else (false, none, (scan_all syms s).2)

/-!
The persistent `indent_vec` as it is seen by the serialization API: `data`
models the allocated buffer (one list element per `uint16_t` cell, so the
capacity is `data.length`) and `len` the number of live entries.
-/

structure IndentVec where
  data : List Nat
  len : Nat
deriving DecidableEq, Repr

/-- `TREE_SITTER_SERIALIZATION_BUFFER_SIZE` from tree_sitter/parser.h. -/
def bufferSize : Nat := 1024

/-- The two bytes of a `uint16_t` cell, low byte first. -/
def u16bytes (n : Nat) : List Nat := [n % 256, n / 256 % 256]

/-- The byte image of a run of `uint16_t` cells. -/
def bytesOf (l : List Nat) : List Nat := l.flatMap u16bytes

/-- Decode a byte image back into `uint16_t` cells. -/
def bytesToU16 : List Nat → List Nat
  | lo :: hi :: r => (lo + 256 * hi) :: bytesToU16 r
  | [r] => [r]
  | [] => []

/-- `tree_sitter_unison_external_scanner_serialize`: copy `2 * len` bytes of
the stack into the host buffer if they fit, returning the byte count; if they
do not fit, write nothing and return 0.  The result is the pair
(bytes written, return value). -/
def scanner_serialize (v : IndentVec) : List Nat × Nat :=
  let to_copy := 2 * v.len
  if to_copy > bufferSize then ([], 0)
  else (bytesOf (v.data.take v.len), to_copy)

/-- `VEC_GROW`: reallocate to `cap` cells if the capacity is smaller.  The
cells added by `realloc` hold unspecified values; they are modelled as 0
(no theorem below depends on them). -/
def vec_grow (v : IndentVec) (cap : Nat) : IndentVec :=
  if v.data.length < cap then
    { v with data := v.data ++ List.replicate (cap - v.data.length) 0 }
  else v

/-- `tree_sitter_unison_external_scanner_deserialize`: when `length > 0`,
grow the stack to `length / 2` entries, set its length and overwrite the
first `length` bytes of its buffer; when `length == 0`, do nothing. -/
def scanner_deserialize (v : IndentVec) (buffer : List Nat) (length : Nat) : IndentVec :=
  let els := length / 2
  if els > 0 then
    let g := vec_grow v els
    { data := bytesToU16 ((buffer.take length) ++ (bytesOf g.data).drop length)
      len := els }
  else v

/-!  Byte-image lemmas for the serialization round trip. -/

theorem bytesOf_append (a b : List Nat) : bytesOf (a ++ b) = bytesOf a ++ bytesOf b := by
  simp [bytesOf]

theorem bytesOf_length (l : List Nat) : (bytesOf l).length = 2 * l.length := by
  induction l with
  | nil => simp [bytesOf]
  | cons a t ih => simp [bytesOf, u16bytes] at ih ⊢; omega

theorem bytesToU16_bytesOf (l : List Nat) (h : ∀ x ∈ l, x < 65536) :
    bytesToU16 (bytesOf l) = l := by
  induction l with
  | nil => simp [bytesOf, bytesToU16]
  | cons a t ih =>
    have ha : a < 65536 := h a (by simp)
    have hdiv : a / 256 % 256 = a / 256 := Nat.mod_eq_of_lt (by omega)
    have : a % 256 + 256 * (a / 256) = a := by omega
    simp [bytesOf, u16bytes, bytesToU16, hdiv, this] at ih ⊢
    exact ih fun x hx => h x (by simp [hx])

/-- C3: serializing a stack and deserializing the produced buffer with the
produced byte count restores the stack: same length and same entries (in
fact the whole vector is unchanged).  `hlen` is the vector invariant
`len ≤ cap`; `hbound` says each cell holds a 16-bit value. -/
theorem serialize_deserialize_roundtrip (v : IndentVec)
    (hlen : v.len ≤ v.data.length) (hbound : ∀ x ∈ v.data, x < 65536) :
    (scanner_deserialize v (scanner_serialize v).1 (scanner_serialize v).2).len = v.len ∧
    (scanner_deserialize v (scanner_serialize v).1 (scanner_serialize v).2).data.take
        (scanner_deserialize v (scanner_serialize v).1 (scanner_serialize v).2).len =
      v.data.take v.len := by
  by_cases hfit : 2 * v.len > bufferSize
  · simp [scanner_serialize, hfit, scanner_deserialize]
  · by_cases hzero : v.len = 0
    · simp [scanner_serialize, hfit, hzero, scanner_deserialize]
    · have hser : scanner_serialize v = (bytesOf (v.data.take v.len), 2 * v.len) := by
        simp [scanner_serialize, hfit]
      have hels : 2 * v.len / 2 = v.len := by omega
      have hgrow : vec_grow v (2 * v.len / 2) = v := by
        simp [vec_grow, hels]; omega
      have hlenbytes : (bytesOf (v.data.take v.len)).length = 2 * v.len := by
        rw [bytesOf_length, List.length_take]; omega
      have hsplit : bytesOf v.data =
          bytesOf (v.data.take v.len) ++ bytesOf (v.data.drop v.len) := by
        rw [← bytesOf_append, List.take_append_drop]
      have hdrop : (bytesOf v.data).drop (2 * v.len) = bytesOf (v.data.drop v.len) := by
        rw [hsplit, List.drop_append_of_le_length (by omega), List.drop_eq_nil_of_le (by omega)]
        simp
      have hdata : (scanner_deserialize v (scanner_serialize v).1 (scanner_serialize v).2).data
          = v.data := by
        rw [hser]
        simp only [scanner_deserialize]
        rw [if_pos (by omega)]
        simp only [hgrow, hdrop]
        rw [List.take_of_length_le (by omega), ← hsplit, bytesToU16_bytesOf _ hbound]
      have hlen2 : (scanner_deserialize v (scanner_serialize v).1 (scanner_serialize v).2).len
          = v.len := by
        rw [hser]; simp only [scanner_deserialize]; rw [if_pos (by omega)]; exact hels
      rw [hdata, hlen2]; exact ⟨rfl, rfl⟩

/-- Witness for `serialize_deserialize_roundtrip` at the stack `[3, 70000 % 65536, 5]`. -/
theorem serialize_deserialize_roundtrip_witness :
    (scanner_deserialize ⟨[3, 4464, 5], 2⟩ (scanner_serialize ⟨[3, 4464, 5], 2⟩).1
        (scanner_serialize ⟨[3, 4464, 5], 2⟩).2).len = (2 : Nat) ∧
    (scanner_deserialize ⟨[3, 4464, 5], 2⟩ (scanner_serialize ⟨[3, 4464, 5], 2⟩).1
        (scanner_serialize ⟨[3, 4464, 5], 2⟩).2).data.take
        (scanner_deserialize ⟨[3, 4464, 5], 2⟩ (scanner_serialize ⟨[3, 4464, 5], 2⟩).1
          (scanner_serialize ⟨[3, 4464, 5], 2⟩).2).len = [3, 4464] :=
  serialize_deserialize_roundtrip ⟨[3, 4464, 5], 2⟩ (by simp) (by decide)

/-- C9: `deserialize` with `length == 0` leaves the vector (length, capacity
and every cell) completely unchanged, whatever was stored before. -/
theorem deserialize_zero_length (v : IndentVec) (buffer : List Nat) :
    scanner_deserialize v buffer 0 = v := by
  simp [scanner_deserialize]

/-- C10: serializing an empty stack writes no bytes and returns 0, and an
oversized stack also returns 0 with no bytes written — the same observable
return value. -/
theorem serialize_empty_and_overflow_return_zero :
    (∀ v : IndentVec, v.len = 0 → scanner_serialize v = ([], 0)) ∧
    (∀ v : IndentVec, bufferSize < 2 * v.len → scanner_serialize v = ([], 0)) := by
  constructor
  · intro v h; simp [scanner_serialize, h, bufferSize, bytesOf]
  · intro v h; simp [scanner_serialize, h]

/-- Witness for `serialize_empty_and_overflow_return_zero`: the empty stack and
a 513-entry stack both serialize to return value 0. -/
theorem serialize_empty_and_overflow_return_zero_witness :
    scanner_serialize ⟨[], 0⟩ = ([], 0) ∧
    scanner_serialize ⟨List.replicate 513 7, 513⟩ = ([], 0) :=
  ⟨serialize_empty_and_overflow_return_zero.1 ⟨[], 0⟩ rfl,
   serialize_empty_and_overflow_return_zero.2 ⟨List.replicate 513 7, 513⟩ (by norm_num [bufferSize])⟩

/-!  The behavior of a scan call at end of file (claims about `eof`). -/

/-- C5: at end of file, a scan call emits EMPTY if requested; otherwise pops
the stack and emits END if END is requested; otherwise emits SEMICOLON if
requested; otherwise fails.  In particular at EOF with EMPTY requested (and
an empty stack or any other stack) this single call emits EMPTY once and
leaves the state unchanged. -/
theorem scan_at_eof (syms : SymSet) (s : St) (h : s.rest = []) :
    scan syms s =
      if syms .EMPTY then (true, some .EMPTY, s)
      else if syms .END then (true, some .END, pop s)
      else if syms .SEMICOLON then (true, some .SEMICOLON, s)
      else (false, none, s) := by
  cases hEm : syms .EMPTY <;> cases hEn : syms .END <;> cases hSe : syms .SEMICOLON <;>
    simp [scan, scan_all, init, eof, andThen, or_fail, end_or_semicolon, layout_end,
      finish_if_valid, isEof, h, hEm, hEn, hSe, res_finish, res_cont, res_fail]

/-- Witness for `scan_at_eof`: an empty file with only EMPTY requested emits
EMPTY. -/
theorem scan_at_eof_witness :
    scan (fun t => decide (t = Sym.EMPTY)) ⟨[], [], none, []⟩ =
      (true, some .EMPTY, ⟨[], [], none, []⟩) := by
  have := scan_at_eof (fun t => decide (t = Sym.EMPTY)) ⟨[], [], none, []⟩ rfl
  simpa using this

/-- C2 counterexample: with every symbol requested (the after-error condition)
but the lexer at end of file, scan does *not* return false: the `eof` rule
runs before the `after_error` check in `init` and emits EMPTY. -/
theorem after_error_at_eof_counterexample :
    after_error (fun _ => true) = true ∧
    (scan (fun _ => true) ⟨[], [], none, []⟩).1 = true ∧
    (scan (fun _ => true) ⟨[], [], none, []⟩).2.1 = some Sym.EMPTY := by
  refine ⟨rfl, ?_, ?_⟩ <;>
    simp [scan, scan_all, init, eof, andThen, or_fail, isEof, res_finish, res_cont]

/-- C2 amended: when every symbol is requested and the lexer is *not* at end
of file, scan returns false with no symbol and the whole state — in
particular the indent stack — unchanged. -/
theorem scan_after_error (syms : SymSet) (s : St)
    (herr : after_error syms = true) (hne : s.rest ≠ []) :
    scan syms s = (false, none, s) := by
  have hEof : isEof s = false := by simpa [isEof, List.isEmpty_iff] using hne
  simp [scan, scan_all, init, eof, andThen, or_fail, hEof, after_error] at herr ⊢
  simp [herr, res_fail, res_cont]

/-- Witness for `scan_after_error`: all symbols requested, input `x`. -/
theorem scan_after_error_witness :
    scan (fun _ => true) ⟨[], ['x'], none, [2]⟩ = (false, none, ⟨[], ['x'], none, [2]⟩) :=
  scan_after_error (fun _ => true) ⟨[], ['x'], none, [2]⟩ rfl (by simp)

/-- C7: when DOT is requested and the lookahead is `.`, the `dot` rule
consumes the dot; if VARSYM is also requested and the character after the
dot is whitespace (space, form feed, newline, carriage return, tab or
vertical tab) it emits VARSYM, otherwise it marks the token end and emits
DOT. -/
theorem dot_rule (syms : SymSet) (s : St)
    (hdot : syms .DOT = true) (hpeek : peekc s = '.') :
    dot syms s =
      if syms .VARSYM = true ∧ (peekc (advance s) = ' ' ∨ peekc (advance s) = '\x0c' ∨
          peekc (advance s) = '\n' ∨ peekc (advance s) = '\r' ∨
          peekc (advance s) = '\t' ∨ peekc (advance s) = '\x0b')
      then (res_finish .VARSYM, advance s)
      else (res_finish .DOT, mark (advance s)) := by
  by_cases hv : syms .VARSYM = true ∧ (peekc (advance s) = ' ' ∨ peekc (advance s) = '\x0c' ∨
      peekc (advance s) = '\n' ∨ peekc (advance s) = '\r' ∨
      peekc (advance s) = '\t' ∨ peekc (advance s) = '\x0b')
  · rw [if_pos hv]
    simp only [dot, hdot, hpeek, if_true]
    rw [if_pos]
    simp [iswspace, hv.1]
    rcases hv.2 with h | h | h | h | h | h <;> simp [h]
  · rw [if_neg hv]
    simp only [dot, hdot, hpeek, if_true]
    rw [if_neg]
    intro hcon
    rw [Bool.and_eq_true] at hcon
    refine hv ⟨hcon.1, ?_⟩
    have := hcon.2
    simp [iswspace] at this
    tauto

/-- Witness for `dot_rule`: `.` followed by a space with DOT and VARSYM
requested emits VARSYM; `.` followed by `y` emits DOT. -/
theorem dot_rule_witness :
    dot (fun t => decide (t = Sym.DOT ∨ t = Sym.VARSYM)) ⟨[], ['.', ' '], none, []⟩ =
      (res_finish .VARSYM, ⟨['.'], [' '], none, []⟩) ∧
    dot (fun t => decide (t = Sym.DOT ∨ t = Sym.VARSYM)) ⟨[], ['.', 'y'], none, []⟩ =
      (res_finish .DOT, ⟨['.'], ['y'], some 1, []⟩) := by
  constructor
  · have := dot_rule (fun t => decide (t = Sym.DOT ∨ t = Sym.VARSYM))
      ⟨[], ['.', ' '], none, []⟩ (by decide) rfl
    rw [this, if_pos (by refine ⟨by decide, .inl ?_⟩; rfl)]
    simp [advance]
  · have := dot_rule (fun t => decide (t = Sym.DOT ∨ t = Sym.VARSYM))
      ⟨[], ['.', 'y'], none, []⟩ (by decide) rfl
    rw [this, if_neg (by rintro ⟨-, h | h | h | h | h | h⟩ <;> simp [advance, peekc] at h)]
    simp [advance, mark]

/-!
Invariant machinery for C1 (every successful scan emits a requested symbol,
except COMMENT and FOLD) and C6 (the stack grows only with START, shrinks
only with END or IN).
-/

/-- The symbols a finished result may carry: FAIL, a requested symbol, or the
unguarded COMMENT / FOLD emissions of the comment rules. -/
def Emits (syms : SymSet) (r : Result) : Prop :=
  r.finished = true →
    r.sym = Sym.FAIL ∨ syms r.sym = true ∨ r.sym = Sym.COMMENT ∨ r.sym = Sym.FOLD

/-- How the indent stack may evolve in one scanner step: unchanged, pushed
once together with a finished START, or popped once together with a finished
END or IN. -/
def StackEvo (a b : List Nat) (r : Result) : Prop :=
  b = a ∨
  (r = ⟨.START, true⟩ ∧ ∃ x, b = a ++ [x]) ∨
  ((r = ⟨.END, true⟩ ∨ r = ⟨.IN, true⟩) ∧ b = a.dropLast)

/-- The combined invariant of a scanner-rule call. -/
def InvAt (syms : SymSet) (s : St) (p : Result × St) : Prop :=
  Emits syms p.1 ∧ StackEvo s.indents p.2.indents p.1

theorem emits_cont (syms : SymSet) : Emits syms res_cont := by
  intro h; simp [res_cont] at h

theorem emits_fail (syms : SymSet) : Emits syms res_fail := by
  intro h; simp [res_fail]

theorem stackEvo_refl (a : List Nat) (r : Result) : StackEvo a a r := Or.inl rfl

theorem stackEvo_of_cont {a b : List Nat} {r : Result}
    (h : StackEvo a b r) (hf : r.finished = false) : b = a := by
  rcases h with h | ⟨hr, -⟩ | ⟨hr | hr, -⟩ <;> first | exact h | (subst hr; simp at hf)

theorem invAt_cont (syms : SymSet) (s : St) : InvAt syms s (res_cont, s) :=
  ⟨emits_cont syms, stackEvo_refl _ _⟩

theorem invAt_fail (syms : SymSet) (s : St) (s' : St) (h : s'.indents = s.indents) :
    InvAt syms s (res_fail, s') :=
  ⟨emits_fail syms, h ▸ stackEvo_refl _ _⟩

theorem invAt_andThen {syms : SymSet} {s : St} {p : Result × St} {k : St → Result × St}
    (h1 : InvAt syms s p) (h2 : InvAt syms p.2 (k p.2)) :
    InvAt syms s (andThen p k) := by
  unfold andThen
  split
  · exact h1
  · refine ⟨h2.1, ?_⟩
    have := stackEvo_of_cont h1.2 (by simpa using ‹¬p.1.finished = true›)
    rw [← this]; exact h2.2

theorem invAt_or_fail {syms : SymSet} {s : St} {p : Result × St}
    (h : InvAt syms s p) : InvAt syms s (or_fail p) := by
  unfold or_fail
  split
  · exact h
  · exact ⟨emits_fail syms, by
      have := stackEvo_of_cont h.2 (by simpa using ‹¬p.1.finished = true›)
      rw [this]; exact stackEvo_refl _ _⟩

theorem advance_indents (s : St) : (advance s).indents = s.indents := by
  cases h : s.rest <;> simp [advance, h]

theorem mark_indents (s : St) : (mark s).indents = s.indents := rfl

theorem pop_indents (s : St) : (pop s).indents = s.indents.dropLast := by
  unfold pop indent_exists
  split <;> simp_all [List.isEmpty_iff]

theorem skipspace_indents (s : St) : (skipspace s).indents = s.indents := by
  induction s using skipspace.induct with
  | _ => rw [skipspace]; split <;> simp_all [advance]

theorem count_indent_indents (s : St) (n : Nat) :
    (count_indent s n).2.indents = s.indents := by
  induction s, n using count_indent.induct with
  | _ => rw [count_indent]; split <;> simp_all [advance]

theorem advance_to_eof_indents (s : St) : (advance_to_eof s).indents = s.indents := by
  induction s using advance_to_eof.induct with
  | _ => rw [advance_to_eof]; split <;> simp_all [advance]

theorem seq_indents (cs : List Char) (s : St) : (seq cs s).2.indents = s.indents := by
  induction cs generalizing s with
  | nil => simp [seq]
  | cons c cs ih => simp only [seq]; split <;> simp [ih, advance_indents]

theorem token_indents (cs : List Char) (s : St) : (token cs s).2.indents = s.indents := by
  simp [token, seq_indents]

theorem inline_comment_state (s : St) :
    (inline_comment s).1 = res_finish .COMMENT ∧
    (inline_comment s).2.indents = s.indents := by
  induction s using inline_comment.induct with
  | _ =>
    rw [inline_comment]
    split <;> simp_all [advance, mark] <;> split <;> simp_all [advance, mark]

theorem invAt_layout_end (syms : SymSet) (s : St) : InvAt syms s (layout_end syms s) := by
  unfold layout_end
  split
  · exact ⟨fun _ => Or.inr (Or.inl ‹_›),
      Or.inr (Or.inr ⟨Or.inl rfl, pop_indents s⟩)⟩
  · exact invAt_cont syms s

theorem invAt_finish_if_valid (syms : SymSet) (t : Sym) (s : St) :
    InvAt syms s (finish_if_valid syms t s) := by
  unfold finish_if_valid
  split
  · exact ⟨fun _ => Or.inr (Or.inl ‹_›), stackEvo_refl _ _⟩
  · exact invAt_cont syms s

theorem invAt_end_or_semicolon (syms : SymSet) (s : St) :
    InvAt syms s (end_or_semicolon syms s) :=
  invAt_andThen (invAt_layout_end syms s) (invAt_finish_if_valid syms _ _)

theorem invAt_eof (syms : SymSet) (s : St) : InvAt syms s (eof syms s) := by
  unfold eof
  split
  · split
    · exact ⟨fun _ => Or.inr (Or.inl ‹_›), stackEvo_refl _ _⟩
    · exact invAt_or_fail (invAt_end_or_semicolon syms s)
  · exact invAt_cont syms s

theorem invAt_dot (syms : SymSet) (s : St) : InvAt syms s (dot syms s) := by
  unfold dot
  split
  · split
    · split
      · exact ⟨fun _ => Or.inr (Or.inl (by simp_all [res_finish])),
          by rw [advance_indents]; exact stackEvo_refl _ _⟩
      · exact ⟨fun _ => Or.inr (Or.inl ‹_›),
          by rw [mark_indents, advance_indents]; exact stackEvo_refl _ _⟩
    · exact invAt_cont syms s
  · exact invAt_cont syms s

theorem invAt_fold (syms : SymSet) (s : St) : InvAt syms s (fold s) := by
  unfold fold
  split
  · exact ⟨fun _ => Or.inr (Or.inr (Or.inr rfl)),
      by rw [mark_indents, advance_to_eof_indents, seq_indents]; exact stackEvo_refl _ _⟩
  · exact ⟨emits_cont syms, by rw [seq_indents]; exact stackEvo_refl _ _⟩

theorem invAt_inline_comment (syms : SymSet) (s : St) : InvAt syms s (inline_comment s) := by
  obtain ⟨h1, h2⟩ := inline_comment_state s
  exact ⟨by rw [h1]; exact fun _ => Or.inr (Or.inr (Or.inl rfl)),
    by rw [h2]; exact stackEvo_refl _ _⟩

/-- Transfer an `InvAt` along an equality of starting indent stacks. -/
theorem invAt_transfer {syms : SymSet} {s s' : St} {p : Result × St}
    (h : InvAt syms s' p) (he : s'.indents = s.indents) : InvAt syms s p :=
  ⟨h.1, he ▸ h.2⟩

theorem invAt_minus (syms : SymSet) (s : St) : InvAt syms s (minus s) := by
  unfold minus
  split
  · exact ⟨emits_cont syms, by rw [seq_indents]; exact stackEvo_refl _ _⟩
  · split
    · split
      · exact ⟨fun _ => Or.inr (Or.inr (Or.inr rfl)),
          by rw [mark_indents, advance_to_eof_indents, advance_indents, seq_indents]
             exact stackEvo_refl _ _⟩
      · exact ⟨emits_fail syms,
          by rw [advance_indents, seq_indents]; exact stackEvo_refl _ _⟩
    · exact invAt_transfer (invAt_inline_comment syms _) (seq_indents _ s)


theorem invAt_multiline_comment_aux (syms : SymSet) :
    ∀ (n : Nat) (level : Nat) (s : St), s.rest.length ≤ n →
      InvAt syms s (multiline_comment syms level s) := by
  intro n
  induction n with
  | zero =>
    intro level s hs
    rw [multiline_comment]
    split
    · simp_all
    · exact invAt_or_fail (invAt_eof syms s)
  | succ n ih =>
    intro level s hs
    rw [multiline_comment]
    split
    case _ c t heq =>
      have h1 : (advance s).rest = t := by simp [advance, heq]
      have hb1 : (advance s).rest.length ≤ n := by
        rw [h1]; have := congrArg List.length heq; simp at this; omega
      have hb2 : (advance (advance s)).rest.length ≤ n :=
        le_trans (advance_rest_le _) hb1
      split
      · split
        · exact invAt_transfer (ih _ _ hb2) (by simp [advance_indents])
        · exact invAt_transfer (ih _ _ hb1) (by simp [advance_indents])
      · split
        · split
          · split
            · exact ⟨fun _ => Or.inr (Or.inr (Or.inl rfl)),
                Or.inl (by simp [multiline_comment_success, mark, advance_indents])⟩
            · exact invAt_transfer (ih _ _ hb2) (by simp [advance_indents])
          · exact invAt_transfer (ih _ _ hb1) (by simp [advance_indents])
        · split
          · exact invAt_or_fail (invAt_eof syms s)
          · exact invAt_transfer (ih _ _ hb1) (by simp [advance_indents])
    · exact invAt_or_fail (invAt_eof syms s)

theorem invAt_multiline_comment (syms : SymSet) (level : Nat) (s : St) :
    InvAt syms s (multiline_comment syms level s) :=
  invAt_multiline_comment_aux syms s.rest.length level s le_rfl

theorem invAt_brace (syms : SymSet) (s : St) : InvAt syms s (brace syms s) := by
  unfold brace
  split
  · exact invAt_fail syms s s rfl
  · split
    · exact invAt_fail syms s _ (advance_indents s)
    · exact invAt_transfer (invAt_multiline_comment syms 0 _) (by simp [advance_indents])

theorem invAt_comment (syms : SymSet) (s : St) : InvAt syms s (comment syms s) := by
  unfold comment
  split
  · exact invAt_or_fail (invAt_minus syms s)
  · split
    · exact invAt_or_fail (invAt_brace syms s)
    · exact invAt_cont syms s

theorem invAt_where (syms : SymSet) (s : St) : InvAt syms s (where_ syms s) := by
  unfold where_
  split
  · split
    · exact ⟨fun _ => Or.inr (Or.inl ‹_›),
        Or.inl (by simp [mark, token_indents])⟩
    · exact invAt_transfer (invAt_layout_end syms _) (token_indents _ s)
  · exact ⟨emits_cont syms, Or.inl (token_indents _ s)⟩

theorem invAt_in (syms : SymSet) (s : St) : InvAt syms s (in_ syms s) := by
  unfold in_
  split
  · split
    · exact ⟨fun _ => Or.inr (Or.inl ‹_›),
        Or.inr (Or.inr ⟨Or.inr rfl, by rw [pop_indents]; simp [mark, token_indents]⟩)⟩
    · exact ⟨emits_cont syms, Or.inl (token_indents _ s)⟩
  · exact invAt_cont syms s

theorem invAt_else (syms : SymSet) (s : St) : InvAt syms s (else_ syms s) := by
  unfold else_
  split
  · exact invAt_transfer (invAt_layout_end syms _) (token_indents _ s)
  · exact ⟨emits_cont syms, Or.inl (token_indents _ s)⟩

theorem invAt_close_layout_in_list (syms : SymSet) (s : St) :
    InvAt syms s (close_layout_in_list syms s) := by
  unfold close_layout_in_list
  split
  · split
    · exact ⟨fun _ => Or.inr (Or.inl ‹_›),
        Or.inr (Or.inr ⟨Or.inl rfl, pop_indents s⟩)⟩
    · exact invAt_cont syms s
  · split
    · split
      · exact ⟨fun _ => Or.inr (Or.inl ‹_›), Or.inl (by simp [mark, advance_indents])⟩
      · exact invAt_or_fail (invAt_transfer (invAt_layout_end syms _) (advance_indents s))
    · exact invAt_cont syms s

theorem invAt_inline_tokens (syms : SymSet) (s : St) :
    InvAt syms s (inline_tokens syms s) := by
  unfold inline_tokens
  split
  · exact invAt_or_fail (invAt_where syms s)
  · split
    · exact invAt_or_fail (invAt_in syms s)
    · split
      · exact invAt_or_fail (invAt_else syms s)
      · split
        · exact invAt_or_fail (invAt_layout_end syms s)
        · exact invAt_close_layout_in_list syms s

theorem invAt_layout_start (syms : SymSet) (col : Nat) (s : St) :
    InvAt syms s (layout_start syms col s) := by
  unfold layout_start
  split
  · exact ⟨fun _ => Or.inr (Or.inl ‹_›),
      Or.inr (Or.inl ⟨rfl, ⟨col % 65536, rfl⟩⟩)⟩
  · exact invAt_cont syms s

theorem invAt_post_end_semicolon (syms : SymSet) (col : Nat) (s : St) :
    InvAt syms s (post_end_semicolon syms col s) := by
  unfold post_end_semicolon
  split
  · exact ⟨fun _ => Or.inr (Or.inl (by simp_all [res_finish])), stackEvo_refl _ _⟩
  · exact invAt_cont syms s

theorem invAt_repeat_end (syms : SymSet) (col : Nat) (s : St) :
    InvAt syms s (repeat_end syms col s) := by
  unfold repeat_end
  split
  · exact invAt_layout_end syms s
  · exact invAt_cont syms s

theorem invAt_newline_semicolon (syms : SymSet) (indent : Nat) (s : St) :
    InvAt syms s (newline_semicolon syms indent s) := by
  unfold newline_semicolon
  split
  · exact ⟨fun _ => Or.inr (Or.inl (by simp_all [res_finish])), stackEvo_refl _ _⟩
  · exact invAt_cont syms s

theorem invAt_dedent (syms : SymSet) (indent : Nat) (s : St) :
    InvAt syms s (dedent syms indent s) := by
  unfold dedent
  split
  · exact invAt_layout_end syms s
  · exact invAt_cont syms s

theorem invAt_newline_indent (syms : SymSet) (indent : Nat) (s : St) :
    InvAt syms s (newline_indent syms indent s) :=
  invAt_andThen (invAt_dedent syms indent s)
    (invAt_andThen (invAt_close_layout_in_list syms _)
      (invAt_newline_semicolon syms indent _))

theorem invAt_newline_token (syms : SymSet) (s : St) :
    InvAt syms s (newline_token syms s) := by
  unfold newline_token
  split
  · exact invAt_minus syms s
  · split
    · exact invAt_fail syms s s rfl
    · split
      · exact invAt_in syms s
      · exact invAt_cont syms s

theorem invAt_newline (syms : SymSet) (indent : Nat) (s : St) :
    InvAt syms s (newline syms indent s) :=
  invAt_andThen (invAt_eof syms s)
    (invAt_andThen (invAt_comment syms _)
      (invAt_andThen (invAt_newline_token syms _)
        (invAt_newline_indent syms indent _)))

theorem invAt_immediate (syms : SymSet) (col : Nat) (s : St) :
    InvAt syms s (immediate syms col s) :=
  invAt_andThen (invAt_layout_start syms col s)
    (invAt_andThen (invAt_post_end_semicolon syms col _)
      (invAt_andThen (invAt_repeat_end syms col _)
        (invAt_inline_tokens syms _)))

theorem invAt_init (syms : SymSet) (s : St) : InvAt syms s (init syms s) := by
  unfold init
  refine invAt_andThen (invAt_eof syms s) ?_
  split
  · exact invAt_fail syms _ _ rfl
  · refine invAt_andThen (invAt_dot syms _) ?_
    split
    · refine invAt_andThen (invAt_fold syms _) ?_
      exact invAt_cont syms _
    · exact invAt_cont syms _

theorem invAt_scan_main (syms : SymSet) (s : St) : InvAt syms s (scan_main syms s) := by
  unfold scan_main
  refine invAt_transfer (invAt_andThen (invAt_eof syms (skipspace s)) ?_) (skipspace_indents s)
  split
  · exact invAt_transfer (invAt_newline syms _ _)
      (by rw [count_indent_indents, advance_indents, mark_indents])
  · exact invAt_transfer (invAt_immediate syms _ _) (mark_indents _)

theorem invAt_scan_all (syms : SymSet) (s : St) : InvAt syms s (scan_all syms s) :=
  invAt_andThen (invAt_init syms s) (invAt_scan_main syms _)


/-- C1 counterexample: an inline comment reached through the newline path is
emitted even when *no* symbol at all is requested: on input `\n--x` with the
all-false symbol set, scan succeeds and reports COMMENT although
`symbols[COMMENT]` is false. -/
theorem scan_emits_unrequested_comment_counterexample :
    (scan (fun _ => false) ⟨[], ['\n', '-', '-', 'x'], none, []⟩).1 = true ∧
    (scan (fun _ => false) ⟨[], ['\n', '-', '-', 'x'], none, []⟩).2.1 = some Sym.COMMENT ∧
    (fun (_ : Sym) => false) Sym.COMMENT = false := by
  refine ⟨?_, ?_, rfl⟩ <;>
    simp [scan, scan_all, init, eof, andThen, or_fail, isEof, after_error, all_syms,
      res_finish, res_cont, res_fail, dot, scan_main, skipspace, mark, is_newline, peekc,
      advance, count_indent, newline, comment, minus, seq, inline_comment, lbrace,
      newline_token, newline_indent, dedent, close_layout_in_list, newline_semicolon,
      smaller_indent, same_indent, indent_exists, back]

/-- C1 amended: a successful scan call reports either a symbol the parser
requested, or COMMENT, or FOLD — the comment and fold emissions of
`inline_comment`, `multiline_comment` and `minus` are not guarded by the
requested-symbol set, every other emission is. -/
theorem scan_emits_requested_or_comment_fold (syms : SymSet) (s : St) (sym : Sym)
    (h : (scan syms s).2.1 = some sym) :
    syms sym = true ∨ sym = Sym.COMMENT ∨ sym = Sym.FOLD := by
  have hinv := invAt_scan_all syms s
  unfold scan at h
  split at h
  · simp only [Option.some.injEq] at h
    rename_i hcond
    rw [Bool.and_eq_true] at hcond
    have hem := hinv.1 hcond.1
    rcases hem with hfail | hreq | hc | hf
    · exfalso
      have := hcond.2
      rw [hfail] at this
      simp at this
    · subst h; exact Or.inl hreq
    · subst h; exact Or.inr (Or.inl hc)
    · subst h; exact Or.inr (Or.inr hf)
  · simp at h

/-- Witness for `scan_emits_requested_or_comment_fold`: scanning the empty
file with EMPTY requested emits EMPTY, a requested symbol. -/
theorem scan_emits_requested_or_comment_fold_witness :
    (fun t => decide (t = Sym.EMPTY)) Sym.EMPTY = true ∨
      Sym.EMPTY = Sym.COMMENT ∨ Sym.EMPTY = Sym.FOLD :=
  scan_emits_requested_or_comment_fold (fun t => decide (t = Sym.EMPTY))
    ⟨[], [], none, []⟩ Sym.EMPTY
    (by simp [scan, scan_all, init, eof, andThen, or_fail, isEof, res_finish,
      res_cont, res_fail])

/-- C6: across a scan call the indent stack length only grows in a call that
succeeds with START, only shrinks in a call that succeeds with END or IN, and
`pop` on an empty stack leaves it empty. -/
theorem stack_growth_discipline (syms : SymSet) (s : St) :
    ((s.indents.length < (scan syms s).2.2.indents.length →
        (scan syms s).1 = true ∧ (scan syms s).2.1 = some Sym.START) ∧
     ((scan syms s).2.2.indents.length < s.indents.length →
        (scan syms s).1 = true ∧
          ((scan syms s).2.1 = some Sym.END ∨ (scan syms s).2.1 = some Sym.IN))) ∧
    (∀ s' : St, s'.indents = [] → (pop s').indents = []) := by
  have hinv := (invAt_scan_all syms s).2
  have hscan2 : (scan syms s).2.2 = (scan_all syms s).2 := by
    unfold scan; split <;> rfl
  constructor
  · constructor
    · intro hgrow
      rw [hscan2] at hgrow
      rcases hinv with heq | ⟨hr, x, hx⟩ | ⟨hr | hr, hx⟩
      · rw [heq] at hgrow; omega
      · have h1 : (scan syms s).1 = true ∧ (scan syms s).2.1 = some (scan_all syms s).1.sym := by
          unfold scan
          split
          · exact ⟨rfl, rfl⟩
          · rename_i hcond
            rw [hr] at hcond
            simp [Sym.START] at hcond
        refine ⟨h1.1, ?_⟩
        rw [h1.2, hr]
      · exfalso; rw [hx] at hgrow
        have := List.length_dropLast s.indents
        omega
      · exfalso; rw [hx] at hgrow
        have := List.length_dropLast s.indents
        omega
    · intro hshrink
      rw [hscan2] at hshrink
      rcases hinv with heq | ⟨hr, x, hx⟩ | ⟨hr | hr, hx⟩
      · rw [heq] at hshrink; omega
      · exfalso; rw [hx] at hshrink; simp at hshrink
      · have h1 : (scan syms s).1 = true ∧ (scan syms s).2.1 = some (scan_all syms s).1.sym := by
          unfold scan
          split
          · exact ⟨rfl, rfl⟩
          · rename_i hcond
            rw [hr] at hcond
            simp [Sym.END] at hcond
        exact ⟨h1.1, Or.inl (by rw [h1.2, hr])⟩
      · have h1 : (scan syms s).1 = true ∧ (scan syms s).2.1 = some (scan_all syms s).1.sym := by
          unfold scan
          split
          · exact ⟨rfl, rfl⟩
          · rename_i hcond
            rw [hr] at hcond
            simp [Sym.IN] at hcond
        exact ⟨h1.1, Or.inr (by rw [h1.2, hr])⟩
  · intro s' h
    simp [pop, indent_exists, h]

/-- Witness for `stack_growth_discipline`: scanning `x` with only START
requested pushes one entry and reports START; `pop` on the empty stack is a
no-op. -/
theorem stack_growth_discipline_witness :
    ((scan (fun t => decide (t = Sym.START)) ⟨[], ['x'], none, []⟩).1 = true ∧
      (scan (fun t => decide (t = Sym.START)) ⟨[], ['x'], none, []⟩).2.1 = some Sym.START) ∧
    (pop ⟨[], [], none, []⟩).indents = [] := by
  refine ⟨(stack_growth_discipline (fun t => decide (t = Sym.START))
      ⟨[], ['x'], none, []⟩).1.1 ?_,
    (stack_growth_discipline (fun t => decide (t = Sym.START))
      ⟨[], [], none, []⟩).2 ⟨[], [], none, []⟩ rfl⟩
  simp [scan, scan_all, init, eof, andThen, or_fail, isEof, after_error, all_syms,
    res_finish, res_cont, res_fail, dot, scan_main, skipspace, mark, is_newline, peekc,
    advance, column, immediate, layout_start, push, post_end_semicolon, repeat_end,
    inline_tokens, close_layout_in_list, indent_lesseq, smaller_indent, indent_exists]


/-!
Block comments (C4 and C8).  The `multiline_comment` loop reads the input
with one character of lookahead, greedily pairing a brace-dash into a comment
opener and a dash-brace into a closer.  `toks` is that tokenization, `render`
its inverse, and `closePos` replays the level counter over a token list,
reporting how many characters the loop consumes before it closes the comment.
-/

inductive Tok where
  | op
  | cl
  | ch (c : Char)
deriving DecidableEq, Repr

/-- Greedy left-to-right tokenization into openers, closers and plain chars. -/
def toks : List Char → List Tok
  | a :: b :: t =>
    if a = lbrace ∧ b = '-' then .op :: toks t
    else if a = '-' ∧ b = rbrace then .cl :: toks t
    else .ch a :: toks (b :: t)
  | [a] => [.ch a]
  | [] => []

/-- The characters of a token list. -/
def render : List Tok → List Char
  | [] => []
  | .op :: r => lbrace :: '-' :: render r
  | .cl :: r => '-' :: rbrace :: render r
  | .ch c :: r => c :: render r

/-- Number of comment openers in a token list. -/
def opc (b : List Tok) : Nat := b.count .op

/-- Number of comment closers in a token list. -/
def clc (b : List Tok) : Nat := b.count .cl

/-- Replay of the 16-bit nesting counter over a token list: the result is the
number of characters consumed up to and including the closer that fires at
counter value 0, or `none` when the counter never closes. -/
def closePos : List Tok → Nat → Option Nat
  | [], _ => none
  | .op :: r, lvl => (closePos r ((lvl + 1) % 65536)).map (2 + ·)
  | .cl :: r, lvl => if lvl = 0 then some 2 else (closePos r (lvl - 1)).map (2 + ·)
  | .ch _ :: r, lvl => (closePos r lvl).map (1 + ·)

/-- Iterated `advance`. -/
def advanceN : Nat → St → St
  | 0, s => s
  | n + 1, s => advanceN n (advance s)

theorem render_toks (x : List Char) : render (toks x) = x := by
  induction x using toks.induct with
  | _ =>
    rw [toks]
    first
    | (split <;> simp_all [render])
    | simp_all [render]

theorem opc_cons_op (l : List Tok) : opc (.op :: l) = opc l + 1 := by simp [opc]
theorem opc_cons_cl (l : List Tok) : opc (.cl :: l) = opc l := by simp [opc]
theorem opc_cons_ch (c : Char) (l : List Tok) : opc (.ch c :: l) = opc l := by simp [opc]
theorem clc_cons_op (l : List Tok) : clc (.op :: l) = clc l := by simp [clc]
theorem clc_cons_cl (l : List Tok) : clc (.cl :: l) = clc l + 1 := by simp [clc]
theorem clc_cons_ch (c : Char) (l : List Tok) : clc (.ch c :: l) = clc l := by simp [clc]

theorem render_append (x y : List Tok) : render (x ++ y) = render x ++ render y := by
  induction x with
  | nil => simp [render]
  | cons a t ih => cases a <;> simp [render, ih]

/-- Tokenizing a concatenation splits, provided the boundary cannot pair. -/
theorem toks_append : ∀ (x r : List Char),
    (x.getLast? = some lbrace → r.head? ≠ some '-') →
    (x.getLast? = some '-' → r.head? ≠ some rbrace) →
    toks (x ++ r) = toks x ++ toks r
  | [], r, _, _ => by simp [toks]
  | [a], r, h1, h2 => by
    cases r with
    | nil => simp [toks]
    | cons rc rr =>
      have ha : ([a] : List Char).getLast? = some a := rfl
      show toks (a :: rc :: rr) = toks [a] ++ toks (rc :: rr)
      rw [toks]
      rw [if_neg (by rintro ⟨rfl, rfl⟩; exact h1 ha rfl)]
      rw [if_neg (by rintro ⟨rfl, rfl⟩; exact h2 ha rfl)]
      rw [show toks [a] = [Tok.ch a] from rfl]
      simp
  | [a, b], r, h1, h2 => by
    show toks (a :: b :: r) = toks [a, b] ++ toks r
    by_cases hp1 : a = lbrace ∧ b = '-'
    · rw [toks, if_pos hp1, show toks ([a, b]) = Tok.op :: toks ([] : List Char) by
        rw [toks, if_pos hp1]]
      simp [toks]
    · by_cases hp2 : a = '-' ∧ b = rbrace
      · rw [toks, if_neg hp1, if_pos hp2, show toks ([a, b]) = Tok.cl :: toks ([] : List Char) by
          rw [toks, if_neg hp1, if_pos hp2]]
        simp [toks]
      · have hb : ([a, b] : List Char).getLast? = some b := rfl
        rw [toks, if_neg hp1, if_neg hp2]
        rw [show b :: r = [b] ++ r by simp]
        rw [toks_append [b] r (by intro hh; exact h1 (hb.trans (by simp_all)))
          (by intro hh; exact h2 (hb.trans (by simp_all)))]
        rw [show toks ([a, b]) = Tok.ch a :: toks [b] by rw [toks, if_neg hp1, if_neg hp2]]
        simp
  | a :: b :: c :: t', r, h1, h2 => by
    have hlast : (a :: b :: c :: t').getLast? = (c :: t').getLast? := by
      rw [List.getLast?_cons_cons, List.getLast?_cons_cons]
    show toks (a :: b :: ((c :: t') ++ r)) = toks (a :: b :: c :: t') ++ toks r
    by_cases hp1 : a = lbrace ∧ b = '-'
    · rw [toks, if_pos hp1, toks, if_pos hp1]
      rw [toks_append (c :: t') r (by rw [← hlast]; exact h1) (by rw [← hlast]; exact h2)]
      simp
    · by_cases hp2 : a = '-' ∧ b = rbrace
      · rw [toks, if_neg hp1, if_pos hp2, toks, if_neg hp1, if_pos hp2]
        rw [toks_append (c :: t') r (by rw [← hlast]; exact h1) (by rw [← hlast]; exact h2)]
        simp
      · have hbc : (a :: b :: c :: t').getLast? = (b :: c :: t').getLast? := by
          rw [List.getLast?_cons_cons]
        rw [toks, if_neg hp1, if_neg hp2]
        rw [show b :: ((c :: t') ++ r) = (b :: c :: t') ++ r by simp]
        rw [toks_append (b :: c :: t') r (by rw [← hbc]; exact h1) (by rw [← hbc]; exact h2)]
        rw [show toks (a :: b :: c :: t') = Tok.ch a :: toks (b :: c :: t') by
          rw [toks, if_neg hp1, if_neg hp2]]
        simp
termination_by x _ _ _ => x.length


theorem advanceN_add (m n : Nat) (s : St) :
    advanceN (m + n) s = advanceN n (advanceN m s) := by
  induction m generalizing s with
  | zero => simp [advanceN]
  | succ m ih =>
    rw [show m + 1 + n = (m + n) + 1 by omega]
    rw [show advanceN (m + n + 1) s = advanceN (m + n) (advance s) from rfl]
    rw [show advanceN (m + 1) s = advanceN m (advance s) from rfl]
    exact ih (advance s)

theorem advanceN_rest_append : ∀ (x y : List Char) (s : St), s.rest = x ++ y →
    advanceN x.length s = ⟨x.reverse ++ s.prev, y, s.marked, s.indents⟩
  | [], y, s, h => by
    cases s with
    | mk p r m i => simp_all [advanceN]
  | c :: x', y, s, h => by
    rw [show (c :: x').length = x'.length + 1 from rfl,
      show advanceN (x'.length + 1) s = advanceN x'.length (advance s) from rfl]
    have hadv : advance s = ⟨c :: s.prev, x' ++ y, s.marked, s.indents⟩ := by
      cases s with
      | mk p r m i => simp_all [advance]
    rw [hadv, advanceN_rest_append x' y _ rfl]
    simp

/--
The bridge between the `multiline_comment` loop and the token-level replay
`closePos`: on NUL-free input the loop either closes the comment after
exactly the number of characters computed by `closePos` (marking there and
emitting COMMENT) or it consumes the entire input and runs the `eof` rule.
-/
theorem multiline_bridge (syms : SymSet) :
    ∀ (n : Nat) (lvl : Nat) (s : St), s.rest.length ≤ n → '\x00' ∉ s.rest →
      multiline_comment syms lvl s =
        match closePos (toks s.rest) lvl with
        | some k => (res_finish Sym.COMMENT, mark (advanceN k s))
        | none => or_fail (eof syms (advanceN s.rest.length s)) := by
  intro n
  induction n with
  | zero =>
    intro lvl s hs hnul
    have hrest : s.rest = [] := List.eq_nil_of_length_eq_zero (by omega)
    rw [multiline_comment]
    split
    · simp_all
    · simp [hrest, toks, closePos, advanceN]
  | succ n ih =>
    intro lvl s hs hnul
    rcases hr : s.rest with - | ⟨a, t⟩
    · rw [multiline_comment]
      split
      · simp_all
      · simp [hr, toks, closePos, advanceN]
    · have hadv1 : (advance s).rest = t := by simp [advance, hr]
      have hlen1 : t.length + 1 ≤ n + 1 := by
        have := congrArg List.length hr; simp at this; omega
      rcases t with - | ⟨b, t'⟩
      · -- a single remaining character
        have hnula : a ≠ '\x00' := by
          intro hcon; apply hnul; rw [hr, hcon]; simp
        have hpk : peekc (advance s) = '\x00' := by simp [peekc, hadv1]
        have hih := ih lvl (advance s) (by rw [hadv1]; simp) (by rw [hadv1]; simp)
        rw [hadv1] at hih
        simp only [toks, closePos, advanceN] at hih
        have htoks : toks s.rest = [Tok.ch a] := by rw [hr, toks]
        rw [multiline_comment]
        split
        case _ c t2 heq =>
          rw [hr] at heq
          injection heq with hca ht2
          subst hca
          subst ht2
          rw [show toks [a] = [Tok.ch a] by rw [toks],
            show closePos [Tok.ch a] lvl = none by rw [closePos, closePos]; rfl,
            show ([a] : List Char).length = 1 from rfl,
            show advanceN 1 s = advance s from rfl]
          by_cases ha1 : a = lbrace
          · rw [if_pos ha1, if_neg (by rw [hpk]; decide)]
            exact hih
          · rw [if_neg ha1]
            by_cases ha2 : a = '-'
            · rw [if_pos ha2, if_neg (by rw [hpk]; decide)]
              exact hih
            · rw [if_neg ha2, if_neg hnula]
              exact hih
        case _ heq => rw [hr] at heq; exact absurd heq (by simp)
      · -- at least two remaining characters
        have hnula : a ≠ '\x00' := by
          intro hcon; apply hnul; rw [hr, hcon]; simp
        have hnult' : '\x00' ∉ t' := by
          intro hcon; apply hnul; rw [hr]; simp [hcon]
        have hnulbt : '\x00' ∉ b :: t' := by
          intro hcon; apply hnul; rw [hr]; simp_all
        have hadv2 : (advance (advance s)).rest = t' := by
          simp [advance, hr]
        have hpk : peekc (advance s) = b := by simp [peekc, hadv1]
        have hlt' : t'.length ≤ n := by
          have := congrArg List.length hr; simp at this; omega
        have hlbt : (b :: t').length ≤ n := by
          have := congrArg List.length hr; simp at this; omega
        rw [multiline_comment]
        split
        case _ c t2 heq =>
          rw [hr] at heq
          injection heq with hca ht2
          subst hca
          subst ht2
          by_cases ha1 : a = lbrace
          · by_cases hb1 : b = '-'
            · -- an opener: level goes up
              have htoks : toks (a :: b :: t') = Tok.op :: toks t' := by
                rw [toks, if_pos ⟨ha1, hb1⟩]
              have hih := ih ((lvl + 1) % 65536) (advance (advance s))
                (by rw [hadv2]; exact hlt') (by rw [hadv2]; exact hnult')
              rw [hadv2] at hih
              rw [if_pos ha1, if_pos (by rw [hpk]; exact hb1), hih, htoks,
                show closePos (Tok.op :: toks t') lvl =
                  (closePos (toks t') ((lvl + 1) % 65536)).map (2 + ·) by rw [closePos]]
              rcases hcp : closePos (toks t') ((lvl + 1) % 65536) with - | m
              · simp only [hcp, Option.map_none']
                rw [show (a :: b :: t').length = t'.length + 1 + 1 from rfl,
                  show advanceN (t'.length + 1 + 1) s =
                    advanceN t'.length (advance (advance s)) from rfl]
              · simp only [hcp, Option.map_some']
                rw [show (2 + m : Nat) = m + 1 + 1 by omega,
                  show advanceN (m + 1 + 1) s = advanceN m (advance (advance s)) from rfl]
            · -- a lone open brace
              have hc1 : ¬(a = lbrace ∧ b = '-') := fun hcon => hb1 hcon.2
              have hc2 : ¬(a = '-' ∧ b = rbrace) := by
                rintro ⟨hcon, -⟩
                rw [ha1] at hcon
                exact absurd hcon (by decide)
              have htoks : toks (a :: b :: t') = Tok.ch a :: toks (b :: t') := by
                rw [toks, if_neg hc1, if_neg hc2]
              have hih := ih lvl (advance s) (by rw [hadv1]; exact hlbt)
                (by rw [hadv1]; exact hnulbt)
              rw [hadv1] at hih
              rw [if_pos ha1, if_neg (by rw [hpk]; exact hb1), hih, htoks,
                show closePos (Tok.ch a :: toks (b :: t')) lvl =
                  (closePos (toks (b :: t')) lvl).map (1 + ·) by rw [closePos]]
              rcases hcp : closePos (toks (b :: t')) lvl with - | m
              · simp only [hcp, Option.map_none']
                rw [show (a :: b :: t').length = (b :: t').length + 1 from rfl,
                  show advanceN ((b :: t').length + 1) s =
                    advanceN (b :: t').length (advance s) from rfl]
              · simp only [hcp, Option.map_some']
                rw [show (1 + m : Nat) = m + 1 by omega,
                  show advanceN (m + 1) s = advanceN m (advance s) from rfl]
          · rw [if_neg ha1]
            by_cases ha2 : a = '-'
            · by_cases hb2 : b = rbrace
              · -- a closer
                have hc1 : ¬(a = lbrace ∧ b = '-') := fun hcon => ha1 hcon.1
                have htoks : toks (a :: b :: t') = Tok.cl :: toks t' := by
                  rw [toks, if_neg hc1, if_pos ⟨ha2, hb2⟩]
                rw [if_pos ha2, if_pos (by rw [hpk]; exact hb2), htoks]
                by_cases hl0 : lvl = 0
                · rw [if_pos hl0, hl0,
                    show closePos (Tok.cl :: toks t') 0 = some 2 by rw [closePos]; simp]
                  rfl
                · have hih := ih (lvl - 1) (advance (advance s))
                    (by rw [hadv2]; exact hlt') (by rw [hadv2]; exact hnult')
                  rw [hadv2] at hih
                  rw [if_neg hl0, hih,
                    show closePos (Tok.cl :: toks t') lvl =
                      (closePos (toks t') (lvl - 1)).map (2 + ·) by
                      rw [closePos]; rw [if_neg hl0]]
                  rcases hcp : closePos (toks t') (lvl - 1) with - | m
                  · simp only [hcp, Option.map_none']
                    rw [show (a :: b :: t').length = t'.length + 1 + 1 from rfl,
                      show advanceN (t'.length + 1 + 1) s =
                        advanceN t'.length (advance (advance s)) from rfl]
                  · simp only [hcp, Option.map_some']
                    rw [show (2 + m : Nat) = m + 1 + 1 by omega,
                      show advanceN (m + 1 + 1) s = advanceN m (advance (advance s)) from rfl]
              · -- a lone dash
                have hc1 : ¬(a = lbrace ∧ b = '-') := fun hcon => ha1 hcon.1
                have hc2 : ¬(a = '-' ∧ b = rbrace) := fun hcon => hb2 hcon.2
                have htoks : toks (a :: b :: t') = Tok.ch a :: toks (b :: t') := by
                  rw [toks, if_neg hc1, if_neg hc2]
                have hih := ih lvl (advance s) (by rw [hadv1]; exact hlbt)
                  (by rw [hadv1]; exact hnulbt)
                rw [hadv1] at hih
                rw [if_pos ha2, if_neg (by rw [hpk]; exact hb2), hih, htoks,
                  show closePos (Tok.ch a :: toks (b :: t')) lvl =
                    (closePos (toks (b :: t')) lvl).map (1 + ·) by rw [closePos]]
                rcases hcp : closePos (toks (b :: t')) lvl with - | m
                · simp only [hcp, Option.map_none']
                  rw [show (a :: b :: t').length = (b :: t').length + 1 from rfl,
                    show advanceN ((b :: t').length + 1) s =
                      advanceN (b :: t').length (advance s) from rfl]
                · simp only [hcp, Option.map_some']
                  rw [show (1 + m : Nat) = m + 1 by omega,
                    show advanceN (m + 1) s = advanceN m (advance s) from rfl]
            · -- any other character
              have hc1 : ¬(a = lbrace ∧ b = '-') := fun hcon => ha1 hcon.1
              have hc2 : ¬(a = '-' ∧ b = rbrace) := fun hcon => ha2 hcon.1
              have htoks : toks (a :: b :: t') = Tok.ch a :: toks (b :: t') := by
                rw [toks, if_neg hc1, if_neg hc2]
              have hih := ih lvl (advance s) (by rw [hadv1]; exact hlbt)
                (by rw [hadv1]; exact hnulbt)
              rw [hadv1] at hih
              rw [if_neg ha2, if_neg hnula, hih, htoks,
                show closePos (Tok.ch a :: toks (b :: t')) lvl =
                  (closePos (toks (b :: t')) lvl).map (1 + ·) by rw [closePos]]
              rcases hcp : closePos (toks (b :: t')) lvl with - | m
              · simp only [hcp, Option.map_none']
                rw [show (a :: b :: t').length = (b :: t').length + 1 from rfl,
                  show advanceN ((b :: t').length + 1) s =
                    advanceN (b :: t').length (advance s) from rfl]
              · simp only [hcp, Option.map_some']
                rw [show (1 + m : Nat) = m + 1 by omega,
                  show advanceN (m + 1) s = advanceN m (advance s) from rfl]
        case _ heq => rw [hr] at heq; exact absurd heq (by simp)


theorem opc_append (x y : List Tok) : opc (x ++ y) = opc x + opc y := by
  simp [opc]

theorem clc_append (x y : List Tok) : clc (x ++ y) = clc x + clc y := by
  simp [clc]

/--
Spec-side notion of a balanced comment body (the `(comment-body | nested)*`
of the spec's grammar, after greedy tokenization): closers never outnumber
openers in any prefix, and they balance overall.
-/
def IsDyck (b : List Tok) : Prop :=
  (∀ p q, b = p ++ q → clc p ≤ opc p) ∧ opc b = clc b

/-- The nesting level inside the body stays at most `m` (the comment's
nesting depth is one more than the body's maximal level). -/
def MaxLvlLe (b : List Tok) (m : Nat) : Prop :=
  ∀ p q, b = p ++ q → opc p - clc p ≤ m

/-- Replaying the counter from `L` over a Dyck body followed by a closer
fires exactly at that closer. -/
theorem closePos_dyck : ∀ (b : List Tok) (L : Nat) (tr : List Tok),
    (∀ p q', b = p ++ .cl :: q' → clc p < L + opc p) →
    (∀ p q, b = p ++ q → L + opc p - clc p ≤ 65535) →
    L + opc b = clc b →
    closePos (b ++ .cl :: tr) L = some ((render b).length + 2)
  | [], L, tr, hcl, hbound, hend => by
    have hL : L = 0 := by simp [opc, clc] at hend; omega
    subst hL
    rw [show ([] : List Tok) ++ Tok.cl :: tr = Tok.cl :: tr by simp, closePos]
    simp [render]
  | .op :: b', L, tr, hcl, hbound, hend => by
    have hb1 : L + 1 ≤ 65535 := by
      have := hbound [.op] b' rfl
      rw [opc_cons_op, clc_cons_op] at this
      simp [opc, clc] at this
      omega
    have hmod : (L + 1) % 65536 = L + 1 := Nat.mod_eq_of_lt (by omega)
    have hrec := closePos_dyck b' (L + 1) tr
      (fun p q' hp => by
        have := hcl (.op :: p) q' (by rw [hp]; simp)
        rw [opc_cons_op, clc_cons_op] at this
        omega)
      (fun p q hp => by
        have := hbound (.op :: p) q (by rw [hp]; simp)
        rw [opc_cons_op, clc_cons_op] at this
        omega)
      (by rw [opc_cons_op, clc_cons_op] at hend; omega)
    rw [show (Tok.op :: b') ++ Tok.cl :: tr = Tok.op :: (b' ++ Tok.cl :: tr) by simp,
      closePos, hmod, hrec]
    simp [render]
    omega
  | .cl :: b', L, tr, hcl, hbound, hend => by
    have hL : 0 < L := by
      have := hcl [] b' rfl
      simp [opc, clc] at this
      omega
    have hrec := closePos_dyck b' (L - 1) tr
      (fun p q' hp => by
        have := hcl (.cl :: p) q' (by rw [hp]; simp)
        rw [opc_cons_cl, clc_cons_cl] at this
        omega)
      (fun p q hp => by
        have := hbound (.cl :: p) q (by rw [hp]; simp)
        rw [opc_cons_cl, clc_cons_cl] at this
        omega)
      (by rw [opc_cons_cl, clc_cons_cl] at hend; omega)
    rw [show (Tok.cl :: b') ++ Tok.cl :: tr = Tok.cl :: (b' ++ Tok.cl :: tr) by simp,
      closePos, if_neg (by omega), hrec]
    simp [render]
    omega
  | .ch c :: b', L, tr, hcl, hbound, hend => by
    have hrec := closePos_dyck b' L tr
      (fun p q' hp => by
        have := hcl (.ch c :: p) q' (by rw [hp]; simp)
        rw [opc_cons_ch, clc_cons_ch] at this
        omega)
      (fun p q hp => by
        have := hbound (.ch c :: p) q (by rw [hp]; simp)
        rw [opc_cons_ch, clc_cons_ch] at this
        omega)
      (by rw [opc_cons_ch, clc_cons_ch] at hend; omega)
    rw [show (Tok.ch c :: b') ++ Tok.cl :: tr = Tok.ch c :: (b' ++ Tok.cl :: tr) by simp,
      closePos, hrec]
    simp [render]
    omega

/-- Replaying the counter from `L` over a token list in which every closer
sees a strictly positive level never fires. -/
theorem closePos_unbalanced : ∀ (t : List Tok) (L : Nat),
    (∀ p q', t = p ++ .cl :: q' → clc p < L + opc p) →
    (∀ p q, t = p ++ q → L + opc p - clc p ≤ 65535) →
    closePos t L = none
  | [], L, hcl, hbound => by rw [closePos]
  | .op :: t', L, hcl, hbound => by
    have hb1 : L + 1 ≤ 65535 := by
      have := hbound [.op] t' rfl
      rw [opc_cons_op, clc_cons_op] at this
      simp [opc, clc] at this
      omega
    have hmod : (L + 1) % 65536 = L + 1 := Nat.mod_eq_of_lt (by omega)
    have hrec := closePos_unbalanced t' (L + 1)
      (fun p q' hp => by
        have := hcl (.op :: p) q' (by rw [hp]; simp)
        rw [opc_cons_op, clc_cons_op] at this
        omega)
      (fun p q hp => by
        have := hbound (.op :: p) q (by rw [hp]; simp)
        rw [opc_cons_op, clc_cons_op] at this
        omega)
    rw [closePos, hmod, hrec]
    rfl
  | .cl :: t', L, hcl, hbound => by
    have hL : 0 < L := by
      have := hcl [] t' rfl
      simp [opc, clc] at this
      omega
    have hrec := closePos_unbalanced t' (L - 1)
      (fun p q' hp => by
        have := hcl (.cl :: p) q' (by rw [hp]; simp)
        rw [opc_cons_cl, clc_cons_cl] at this
        omega)
      (fun p q hp => by
        have := hbound (.cl :: p) q (by rw [hp]; simp)
        rw [opc_cons_cl, clc_cons_cl] at this
        omega)
    rw [closePos, if_neg (by omega), hrec]
    rfl
  | .ch c :: t', L, hcl, hbound => by
    have hrec := closePos_unbalanced t' L
      (fun p q' hp => by
        have := hcl (.ch c :: p) q' (by rw [hp]; simp)
        rw [opc_cons_ch, clc_cons_ch] at this
        omega)
      (fun p q hp => by
        have := hbound (.ch c :: p) q (by rw [hp]; simp)
        rw [opc_cons_ch, clc_cons_ch] at this
        omega)
    rw [closePos, hrec]
    rfl

/-- A Dyck body instantiates `closePos_dyck` at level 0. -/
theorem closePos_of_dyck (b : List Tok) (tr : List Tok)
    (hd : IsDyck b) (hm : MaxLvlLe b 65535) :
    closePos (b ++ Tok.cl :: tr) 0 = some ((render b).length + 2) := by
  apply closePos_dyck b 0 tr
  · intro p q' hp
    have h1 := hd.1 (p ++ [Tok.cl]) q' (by rw [hp]; simp)
    rw [clc_append, opc_append] at h1
    have h2 : clc [Tok.cl] = 1 := rfl
    have h3 : opc [Tok.cl] = 0 := rfl
    omega
  · intro p q hp
    have := hm p q hp
    omega
  · simpa using hd.2


theorem andThen_cont (s : St) (k : St → Result × St) : andThen (res_cont, s) k = k s := by
  simp [andThen, res_cont]

theorem andThen_finished {p : Result × St} (h : p.1.finished = true)
    (k : St → Result × St) : andThen p k = p := by
  simp [andThen, h]

theorem or_fail_finished {p : Result × St} (h : p.1.finished = true) : or_fail p = p := by
  simp [or_fail, h]

theorem or_fail_fin (p : Result × St) : (or_fail p).1.finished = true := by
  unfold or_fail
  split
  · exact ‹_›
  · rfl

theorem eof_not_eof (syms : SymSet) (s : St) (h : s.rest ≠ []) :
    eof syms s = (res_cont, s) := by
  simp [eof, isEof, List.isEmpty_iff, h]

theorem dot_not_dot (syms : SymSet) (s : St) (h : peekc s ≠ '.') :
    dot syms s = (res_cont, s) := by
  simp [dot, h]

theorem fold_not_dash (s : St) (h : peekc s ≠ '-') : fold s = (res_cont, s) := by
  have hseq : seq ['-', '-', '-'] s = (false, s) := by rw [seq, if_neg h]
  unfold fold
  rw [hseq]
  simp

/-- `init` passes through unchanged when the next character is neither a dot
nor a dash and the parser is not recovering from an error. -/
theorem init_cont_of (syms : SymSet) (s : St) (herr : after_error syms = false)
    (hne : s.rest ≠ []) (h1 : peekc s ≠ '.') (h2 : peekc s ≠ '-') :
    init syms s = (res_cont, s) := by
  rw [init, eof_not_eof syms s hne, andThen_cont]
  rw [if_neg (by simp [herr])]
  rw [dot_not_dot syms s h1, andThen_cont]
  by_cases hf : syms .FOLD
  · rw [if_pos hf, fold_not_dash s h2, andThen_cont]
  · rw [if_neg hf]

theorem multiline_comment_finished (syms : SymSet) :
    ∀ (n : Nat) (lvl : Nat) (s : St), s.rest.length ≤ n →
      (multiline_comment syms lvl s).1.finished = true := by
  intro n
  induction n with
  | zero =>
    intro lvl s hs
    rw [multiline_comment]
    split
    · simp_all
    · exact or_fail_fin _
  | succ n ih =>
    intro lvl s hs
    rw [multiline_comment]
    split
    case _ c t2 heq =>
      have h1 : (advance s).rest.length ≤ n := by
        have := advance_rest_lt s (by rw [heq]; simp)
        omega
      have h2 : (advance (advance s)).rest.length ≤ n := le_trans (advance_rest_le _) h1
      split
      · split
        · exact ih _ _ h2
        · exact ih _ _ h1
      · split
        · split
          · split
            · rfl
            · exact ih _ _ h2
          · exact ih _ _ h1
        · split
          · exact or_fail_fin _
          · exact ih _ _ h1
    case _ => exact or_fail_fin _

/-- A balanced Dyck body followed by a closer: `multiline_comment` closes at
exactly the end of `v` and emits COMMENT, marking there. -/
theorem multiline_balanced (syms : SymSet) (s5 : St) (b : List Tok) (v r' : List Char)
    (hv : v = render (b ++ [Tok.cl]))
    (htoksv : toks v = b ++ [Tok.cl])
    (hd : IsDyck b) (hm : MaxLvlLe b 65535)
    (hnv : '\x00' ∉ v) (hnr : '\x00' ∉ r')
    (hrest : s5.rest = v ++ r') :
    multiline_comment syms 0 s5 =
      (res_finish Sym.COMMENT,
        ⟨v.reverse ++ s5.prev, r', some (v.length + s5.prev.length), s5.indents⟩) := by
  have hvdecomp : v = render b ++ ['-', rbrace] := by
    rw [hv, render_append]; rfl
  have hlast : v.getLast? = some rbrace := by
    rw [hvdecomp, show render b ++ ['-', rbrace] = (render b ++ ['-']) ++ [rbrace] by simp]
    exact List.getLast?_concat _
  have happ : toks (v ++ r') = (b ++ [Tok.cl]) ++ toks r' := by
    rw [toks_append v r'
      (by rw [hlast]; intro h; exact absurd (Option.some.inj h) (by decide))
      (by rw [hlast]; intro h; exact absurd (Option.some.inj h) (by decide)), htoksv]
  have hvlen : v.length = (render b).length + 2 := by
    rw [hvdecomp]; simp
  have hclose : closePos (toks (v ++ r')) 0 = some v.length := by
    rw [happ, show (b ++ [Tok.cl]) ++ toks r' = b ++ (Tok.cl :: toks r') by simp,
      closePos_of_dyck b _ hd hm, hvlen]
  have hbridge := multiline_bridge syms s5.rest.length 0 s5 le_rfl
    (by rw [hrest]; simp only [List.mem_append, not_or]; exact ⟨hnv, hnr⟩)
  rw [hrest] at hbridge
  rw [hclose] at hbridge
  rw [hbridge]
  show (res_finish Sym.COMMENT, mark (advanceN v.length s5)) = _
  rw [advanceN_rest_append v r' s5 hrest]
  simp [mark]

/-- An unbalanced body: `multiline_comment` consumes the whole input and runs
the `eof` rule. -/
theorem multiline_unbalanced (syms : SymSet) (s5 : St) (t : List Tok) (w : List Char)
    (htoksw : toks w = t)
    (hcl : ∀ p q', t = p ++ Tok.cl :: q' → clc p < opc p)
    (hbound : ∀ p q, t = p ++ q → opc p - clc p ≤ 65535)
    (hnw : '\x00' ∉ w)
    (hrest : s5.rest = w) :
    multiline_comment syms 0 s5 =
      or_fail (eof syms ⟨w.reverse ++ s5.prev, [], s5.marked, s5.indents⟩) := by
  have hclose : closePos (toks w) 0 = none := by
    rw [htoksw]
    exact closePos_unbalanced t 0 (fun p q' hp => by simpa using hcl p q' hp)
      (fun p q hp => by simpa using hbound p q hp)
  have hbridge := multiline_bridge syms s5.rest.length 0 s5 le_rfl (by rw [hrest]; exact hnw)
  rw [hrest] at hbridge
  rw [hclose] at hbridge
  rw [hbridge]
  show or_fail (eof syms (advanceN w.length s5)) = _
  rw [advanceN_rest_append w [] s5 (by rw [hrest]; simp)]


/-- `count_indent` stops immediately on a non-whitespace character. -/
theorem count_indent_no_ws (s : St) (ind : Nat) (c : Char) (t : List Char)
    (hrest : s.rest = c :: t) (h1 : is_newline c = false) (h2 : c ≠ ' ') (h3 : c ≠ '\t') :
    count_indent s ind = (ind, s) := by
  rw [count_indent]
  split
  case _ c2 t2 heq =>
    rw [hrest] at heq
    injection heq with hc ht
    subst hc
    rw [if_neg (by simp [h1]), if_neg h2, if_neg h3]
  case _ heq => rfl

/-- On input starting with a newline followed by `brace dash`, a scan call
reaches `multiline_comment` with the mark set at the scan start. -/
theorem scan_all_newline_brace (syms : SymSet) (st : St) (v : List Char)
    (herr : after_error syms = false)
    (hrest : st.rest = '\n' :: lbrace :: '-' :: v) :
    scan_all syms st = multiline_comment syms 0
      ⟨'-' :: lbrace :: '\n' :: st.prev, v, some st.prev.length, st.indents⟩ := by
  have hpk : peekc st = '\n' := by simp [peekc, hrest]
  have hne : st.rest ≠ [] := by rw [hrest]; simp
  have hinit := init_cont_of syms st herr hne (by rw [hpk]; decide) (by rw [hpk]; decide)
  rw [scan_all, hinit, andThen_cont, scan_main]
  have hskip : skipspace st = st := by
    rw [skipspace]
    split
    case _ c t2 heq =>
      rw [hrest] at heq
      injection heq with hc ht
      subst hc
      rw [if_neg (by decide)]
    case _ heq => rfl
  rw [hskip, eof_not_eof syms st hne, andThen_cont]
  have hpkm : peekc (mark st) = '\n' := by simp [peekc, mark, hrest]
  rw [if_pos (by rw [hpkm]; decide)]
  have hadv : advance (mark st) =
      ⟨'\n' :: st.prev, lbrace :: '-' :: v, some st.prev.length, st.indents⟩ := by
    cases st
    simp_all [advance, mark]
  rw [hadv]
  have hcnt := count_indent_no_ws
    ⟨'\n' :: st.prev, lbrace :: '-' :: v, some st.prev.length, st.indents⟩ 0 lbrace
    ('-' :: v) rfl (by decide) (by decide) (by decide)
  rw [hcnt]
  show newline syms 0 ⟨'\n' :: st.prev, lbrace :: '-' :: v, some st.prev.length, st.indents⟩ = _
  rw [newline, eof_not_eof syms _ (by simp), andThen_cont]
  have hpk4 : peekc ⟨'\n' :: st.prev, lbrace :: '-' :: v, some st.prev.length, st.indents⟩
      = lbrace := rfl
  rw [comment, if_neg (by rw [hpk4]; decide), if_pos hpk4]
  rw [brace, if_neg (by rw [hpk4]; simp)]
  have hadv4 : advance ⟨'\n' :: st.prev, lbrace :: '-' :: v, some st.prev.length, st.indents⟩
      = ⟨lbrace :: '\n' :: st.prev, '-' :: v, some st.prev.length, st.indents⟩ := rfl
  rw [hadv4]
  rw [if_neg (by simp [peekc])]
  have hadv5 : advance ⟨lbrace :: '\n' :: st.prev, '-' :: v, some st.prev.length, st.indents⟩
      = ⟨'-' :: lbrace :: '\n' :: st.prev, v, some st.prev.length, st.indents⟩ := rfl
  rw [hadv5]
  have hfin := multiline_comment_finished syms
    (⟨'-' :: lbrace :: '\n' :: st.prev, v, some st.prev.length, st.indents⟩ : St).rest.length 0
    ⟨'-' :: lbrace :: '\n' :: st.prev, v, some st.prev.length, st.indents⟩ le_rfl
  rw [or_fail_finished hfin, andThen_finished hfin]


/-- A token list beginning with an opener pins down the shape of the string
it was tokenized from. -/
theorem toks_op_decomp (u : List Char) (t : List Tok) (h : toks u = Tok.op :: t) :
    u = lbrace :: '-' :: render t ∧ toks (render t) = t := by
  have hu : u = render (toks u) := (render_toks u).symm
  rw [h] at hu
  rw [show render (Tok.op :: t) = lbrace :: '-' :: render t from rfl] at hu
  have htoks2 : toks u = Tok.op :: toks (render t) := by
    rw [hu, toks, if_pos ⟨rfl, rfl⟩]
  rw [h] at htoks2
  injection htoks2 with h1 h2
  exact ⟨hu, h2.symm⟩

theorem or_fail_cont (s : St) : or_fail (res_cont, s) = (res_fail, s) := by
  simp [or_fail, res_cont]

/-- C4 (amended): reached through the newline path, a balanced nested block
comment of nesting depth at most 65536 is consumed through exactly its
matching closer with COMMENT emitted (first part); with unbalanced openers
and none of EMPTY, END, SEMICOLON requested, the scan consumes to end of
file and fails (second part). -/
theorem scan_block_comment :
    (∀ (syms : SymSet) (st : St) (b : List Tok) (u r' : List Char),
      after_error syms = false →
      toks u = Tok.op :: (b ++ [Tok.cl]) →
      IsDyck b → MaxLvlLe b 65535 →
      '\x00' ∉ u → '\x00' ∉ r' →
      st.rest = '\n' :: (u ++ r') →
      scan syms st = (true, some Sym.COMMENT,
        ⟨u.reverse ++ '\n' :: st.prev, r',
          some (st.prev.length + 1 + u.length), st.indents⟩)) ∧
    (∀ (syms : SymSet) (st : St) (t : List Tok) (u : List Char),
      syms Sym.EMPTY = false → syms Sym.END = false → syms Sym.SEMICOLON = false →
      toks u = Tok.op :: t →
      (∀ p q', t = p ++ Tok.cl :: q' → clc p < opc p) →
      (∀ p q, t = p ++ q → opc p - clc p ≤ 65535) →
      '\x00' ∉ u →
      st.rest = '\n' :: u →
      scan syms st = (false, none,
        ⟨u.reverse ++ '\n' :: st.prev, [], some st.prev.length, st.indents⟩)) := by
  constructor
  · intro syms st b u r' herr htoks hd hm hnu hnr hrest
    obtain ⟨hu, htoksv⟩ := toks_op_decomp u (b ++ [Tok.cl]) htoks
    set v := render (b ++ [Tok.cl]) with hvdef
    have hrest2 : st.rest = '\n' :: lbrace :: '-' :: (v ++ r') := by
      rw [hrest, hu]; simp
    have hnv : '\x00' ∉ v := by
      intro hcon; apply hnu; rw [hu]; simp [hcon]
    have hsa := scan_all_newline_brace syms st (v ++ r') herr hrest2
    have hmb := multiline_balanced syms
      ⟨'-' :: lbrace :: '\n' :: st.prev, v ++ r', some st.prev.length, st.indents⟩
      b v r' hvdef htoksv hd hm hnv hnr rfl
    have hall : scan_all syms st = (res_finish Sym.COMMENT,
        ⟨v.reverse ++ '-' :: lbrace :: '\n' :: st.prev, r',
          some (v.length + ('-' :: lbrace :: '\n' :: st.prev).length), st.indents⟩) := by
      rw [hsa]; exact hmb
    have hfinal : (⟨v.reverse ++ '-' :: lbrace :: '\n' :: st.prev, r',
        some (v.length + ('-' :: lbrace :: '\n' :: st.prev).length), st.indents⟩ : St) =
        ⟨u.reverse ++ '\n' :: st.prev, r',
          some (st.prev.length + 1 + u.length), st.indents⟩ := by
      rw [hu]
      simp
      omega
    rw [scan, hall, hfinal]
    simp [res_finish]
  · intro syms st t u hEM hEnd hSemi htoks hcl hbound hnu hrest
    have herr : after_error syms = false := by
      simp [after_error, all_syms, hEM]
    obtain ⟨hu, htoksw⟩ := toks_op_decomp u t htoks
    set w := render t with hwdef
    have hrest2 : st.rest = '\n' :: lbrace :: '-' :: w := by
      rw [hrest, hu]
    have hnw : '\x00' ∉ w := by
      intro hcon; apply hnu; rw [hu]; simp [hcon]
    have hsa := scan_all_newline_brace syms st w herr hrest2
    have hmu := multiline_unbalanced syms
      ⟨'-' :: lbrace :: '\n' :: st.prev, w, some st.prev.length, st.indents⟩
      t w htoksw hcl hbound hnw rfl
    set send : St :=
      ⟨w.reverse ++ '-' :: lbrace :: '\n' :: st.prev, [], some st.prev.length, st.indents⟩
      with hsend
    have heof : eof syms send = (res_fail, send) := by
      rw [eof, if_pos (show isEof send = true by rw [hsend]; rfl),
        if_neg (by simp [hEM]), end_or_semicolon, layout_end,
        if_neg (by simp [hEnd]), andThen_cont, finish_if_valid, if_neg (by simp [hSemi]),
        or_fail_cont]
    have hmulti : multiline_comment syms 0
        ⟨'-' :: lbrace :: '\n' :: st.prev, w, some st.prev.length, st.indents⟩ =
        (res_fail, send) := by
      rw [hmu, heof, or_fail_finished rfl]
    have hall : scan_all syms st = (res_fail, send) := by rw [hsa, hmulti]
    have hfinal : send = ⟨u.reverse ++ '\n' :: st.prev, [], some st.prev.length, st.indents⟩ := by
      rw [hsend, hu]
      simp
    rw [scan, hall, hfinal]
    simp [res_fail]


/-- C8 (amended): for every balanced comment whose body's nesting level stays
within the 16-bit counter (nesting depth at most 65536), `brace` tracks the
nesting correctly and closes the outermost comment exactly at its own
matching closer, emitting COMMENT. -/
theorem brace_nesting_depth (syms : SymSet) (s : St) (b : List Tok) (u r' : List Char)
    (htoks : toks u = Tok.op :: (b ++ [Tok.cl]))
    (hd : IsDyck b) (hm : MaxLvlLe b 65535)
    (hnu : '\x00' ∉ u) (hnr : '\x00' ∉ r')
    (hrest : s.rest = u ++ r') :
    brace syms s = (res_finish Sym.COMMENT,
      ⟨u.reverse ++ s.prev, r', some (s.prev.length + u.length), s.indents⟩) := by
  obtain ⟨hu, htoksv⟩ := toks_op_decomp u (b ++ [Tok.cl]) htoks
  set v := render (b ++ [Tok.cl]) with hvdef
  have hrest2 : s.rest = lbrace :: '-' :: (v ++ r') := by rw [hrest, hu]; simp
  have hnv : '\x00' ∉ v := fun hcon => hnu (by rw [hu]; simp [hcon])
  have hpk : peekc s = lbrace := by simp [peekc, hrest2]
  have hadv1 : advance s = ⟨lbrace :: s.prev, '-' :: (v ++ r'), s.marked, s.indents⟩ := by
    cases s
    simp_all [advance]
  rw [brace, if_neg (by simp [hpk]), hadv1, if_neg (by simp [peekc])]
  rw [show advance (⟨lbrace :: s.prev, '-' :: (v ++ r'), s.marked, s.indents⟩ : St) =
    ⟨'-' :: lbrace :: s.prev, v ++ r', s.marked, s.indents⟩ from rfl]
  rw [multiline_balanced syms _ b v r' hvdef htoksv hd hm hnv hnr rfl]
  rw [hu]
  simp
  omega

/-- The body of the empty comment is Dyck. -/
theorem isDyck_nil : IsDyck [] := by
  refine ⟨?_, rfl⟩
  intro p q h
  have hp : p = [] := by cases p <;> simp_all
  subst hp
  exact Nat.le_refl _

theorem maxLvlLe_nil (m : Nat) : MaxLvlLe [] m := by
  intro p q h
  have hp : p = [] := by cases p <;> simp_all
  subst hp
  simp [opc, clc]

/-- `toks` of the two-token comment `brace dash dash brace`. -/
theorem toks_simple_comment :
    toks [lbrace, '-', '-', rbrace] = Tok.op :: (([] : List Tok) ++ [Tok.cl]) := by
  rw [toks, if_pos ⟨rfl, rfl⟩, toks, if_neg (by decide), if_pos ⟨rfl, rfl⟩, toks]
  rfl

/-- Witness for `scan_block_comment`: the comment `(newline) brace dash dash
brace` with no requested symbols is consumed entirely and COMMENT is
emitted; the unclosed `brace dash` reaches EOF and fails. -/
theorem scan_block_comment_witness :
    scan (fun _ => false) ⟨[], '\n' :: ([lbrace, '-', '-', rbrace] ++ []), none, []⟩ =
      (true, some Sym.COMMENT,
        ⟨[lbrace, '-', '-', rbrace].reverse ++ '\n' :: [], [],
          some (List.length ([] : List Char) + 1 + [lbrace, '-', '-', rbrace].length), []⟩) ∧
    scan (fun _ => false) ⟨[], '\n' :: [lbrace, '-', 'x'], none, []⟩ =
      (false, none,
        ⟨[lbrace, '-', 'x'].reverse ++ '\n' :: [], [],
          some (List.length ([] : List Char)), []⟩) :=
  ⟨scan_block_comment.1 (fun _ => false) ⟨[], '\n' :: ([lbrace, '-', '-', rbrace] ++ []), none, []⟩
      [] [lbrace, '-', '-', rbrace] [] rfl toks_simple_comment isDyck_nil (maxLvlLe_nil 65535)
      (by decide) (by decide) rfl,
   scan_block_comment.2 (fun _ => false) ⟨[], '\n' :: [lbrace, '-', 'x'], none, []⟩
      [Tok.ch 'x'] [lbrace, '-', 'x'] rfl rfl rfl
      (by rw [toks, if_pos ⟨rfl, rfl⟩, toks])
      (by
        intro p q' hp
        exfalso
        rcases p with - | ⟨tk, p'⟩
        · simp at hp
        · rcases p' with - | ⟨tk2, p''⟩ <;> simp_all)
      (by
        intro p q hp
        rcases p with - | ⟨tk, p'⟩
        · simp [opc, clc]
        · rcases p' with - | ⟨tk2, p''⟩
          · simp_all
            cases tk <;> simp [opc, clc] <;> omega
          · simp_all)
      (by decide) rfl⟩

/-- C4 counterexample: on the balanced comment `brace dash dash brace` with
COMMENT requested, a scan call that starts at the open brace (no preceding
newline) does *not* emit COMMENT — it returns false, because the comment
rules are only reached through the newline path. -/
theorem scan_at_brace_counterexample :
    (scan (fun t => decide (t = Sym.COMMENT))
      ⟨[], [lbrace, '-', '-', rbrace], none, []⟩).1 = false := by
  simp +decide [scan, scan_all, init, eof, andThen, or_fail, isEof, after_error, all_syms,
    dot, fold, seq, peekc, scan_main, skipspace, mark, is_newline, immediate, layout_start,
    post_end_semicolon, repeat_end, inline_tokens, close_layout_in_list, where_, in_, else_,
    token, token_end, isws, indent_lesseq, smaller_indent, indent_exists, back, layout_end,
    res_cont, res_fail, res_finish, column, advance]


/-- `n` comment openers in a row. -/
def opensN : Nat → List Char
  | 0 => []
  | n + 1 => lbrace :: '-' :: opensN n

/-- `n` comment closers in a row. -/
def closesN : Nat → List Char
  | 0 => []
  | n + 1 => '-' :: rbrace :: closesN n

/-- Running `multiline_comment` over `n` openers adds `n` to the 16-bit
counter modulo 65536 and consumes them. -/
theorem multiline_opens (syms : SymSet) : ∀ (n : Nat) (lvl : Nat) (s : St) (tail : List Char),
    lvl < 65536 →
    s.rest = opensN n ++ tail →
    multiline_comment syms lvl s =
      multiline_comment syms ((lvl + n) % 65536)
        ⟨(opensN n).reverse ++ s.prev, tail, s.marked, s.indents⟩ := by
  intro n
  induction n with
  | zero =>
    intro lvl s tail hlt hrest
    rw [show (lvl + 0) % 65536 = lvl by rw [Nat.add_zero]; exact Nat.mod_eq_of_lt hlt]
    congr 1
    cases s
    simp_all [opensN]
  | succ n ih =>
    intro lvl s tail hlt hrest
    have hrest' : s.rest = lbrace :: '-' :: (opensN n ++ tail) := by
      rw [hrest, opensN]
      simp
    have hadv2 : (advance (advance s)).rest = opensN n ++ tail := by
      simp [advance, hrest']
    have hpk1 : peekc (advance s) = '-' := by
      simp [peekc, advance, hrest']
    rw [multiline_comment]
    split
    case _ c t2 heq =>
      rw [hrest'] at heq
      injection heq with hc ht
      subst hc
      subst ht
      rw [if_pos rfl, if_pos hpk1]
      rw [ih ((lvl + 1) % 65536) (advance (advance s)) tail (Nat.mod_lt _ (by omega)) hadv2]
      congr 1
      · rw [Nat.mod_add_mod]
        congr 1
        omega
      · have hprev : (advance (advance s)).prev = '-' :: lbrace :: s.prev := by
          cases s
          simp_all [advance]
        have hm : (advance (advance s)).marked = s.marked := by
          cases s
          simp_all [advance]
        have hi : (advance (advance s)).indents = s.indents := by
          cases s
          simp_all [advance]
        rw [hprev, hm, hi, opensN]
        simp
    case _ heq =>
      rw [hrest'] at heq
      exact absurd heq (by simp)

/-- C8 counterexample: the counter is 16 bits wide and wraps.  On a balanced
comment of nesting depth 65537 (65537 openers then 65537 closers) the counter
returns to 0 after the 65537th opener, so `brace` emits COMMENT at the
*first* closer: 65536 closers are left unconsumed, although the matching
closer of the outermost comment is the last one. -/
theorem nesting_counter_wrap_counterexample :
    (brace (fun _ => false) ⟨[], opensN 65537 ++ closesN 65537, none, []⟩).1 =
      res_finish Sym.COMMENT ∧
    (brace (fun _ => false) ⟨[], opensN 65537 ++ closesN 65537, none, []⟩).2.rest =
      closesN 65536 ∧
    closesN 65536 ≠ [] := by
  have h1a : opensN 65537 = lbrace :: '-' :: opensN 65536 := by
    rw [show (65537 : Nat) = 65536 + 1 by norm_num, opensN]
  have h1 : opensN 65537 ++ closesN 65537 = lbrace :: '-' :: (opensN 65536 ++ closesN 65537) := by
    rw [h1a]
    simp
  have hcl : closesN 65537 = '-' :: rbrace :: closesN 65536 := by
    rw [show (65537 : Nat) = 65536 + 1 by norm_num, closesN]
  have hne : closesN 65536 ≠ [] := by
    rw [show (65536 : Nat) = 65535 + 1 by norm_num, closesN]
    simp
  have hst : (⟨[], opensN 65537 ++ closesN 65537, none, []⟩ : St) =
      ⟨[], lbrace :: '-' :: (opensN 65536 ++ closesN 65537), none, []⟩ := by rw [h1]
  have hbrace : brace (fun _ => false) ⟨[], opensN 65537 ++ closesN 65537, none, []⟩ =
      multiline_comment (fun _ => false) 0
        ⟨['-', lbrace], opensN 65536 ++ closesN 65537, none, []⟩ := by
    rw [hst, brace, if_neg (by simp [peekc]), if_neg (by simp [peekc, advance])]
    rfl
  have hopens := multiline_opens (fun _ => false) 65536 0
    ⟨['-', lbrace], opensN 65536 ++ closesN 65537, none, []⟩ (closesN 65537)
    (by omega) rfl
  rw [show (0 + 65536) % 65536 = 0 by norm_num] at hopens
  have hs3 : (⟨(opensN 65536).reverse ++ ['-', lbrace], closesN 65537, none, []⟩ : St) =
      ⟨(opensN 65536).reverse ++ ['-', lbrace], '-' :: rbrace :: closesN 65536, none, []⟩ := by
    rw [hcl]
  have hstep : multiline_comment (fun _ => false) 0
      (⟨(opensN 65536).reverse ++ ['-', lbrace], '-' :: rbrace :: closesN 65536, none, []⟩ : St) =
      (res_finish Sym.COMMENT,
        mark ⟨rbrace :: '-' :: ((opensN 65536).reverse ++ ['-', lbrace]),
          closesN 65536, none, []⟩) := by
    rw [multiline_comment]
    split
    case _ c t2 heq =>
      injection heq with hc ht
      subst hc
      rw [if_neg (by decide), if_pos rfl, if_pos (by simp [peekc, advance]), if_pos rfl]
      rfl
    case _ heq => simp at heq
  refine ⟨?_, ?_, hne⟩ <;>
    rw [hbrace, hopens, hs3, hstep] <;> rfl


/-- Witness for `brace_nesting_depth` at the depth-1 comment
`brace dash dash brace`. -/
theorem brace_nesting_depth_witness :
    brace (fun _ => false) ⟨[], [lbrace, '-', '-', rbrace] ++ [], none, []⟩ =
      (res_finish Sym.COMMENT, ⟨[lbrace, '-', '-', rbrace].reverse ++ [], [],
        some (List.length ([] : List Char) + [lbrace, '-', '-', rbrace].length), []⟩) :=
  brace_nesting_depth (fun _ => false) ⟨[], [lbrace, '-', '-', rbrace] ++ [], none, []⟩ []
    [lbrace, '-', '-', rbrace] [] toks_simple_comment isDyck_nil (maxLvlLe_nil 65535)
    (by decide) (by decide) rfl

/-- Witness instantiation of `deserialize_zero_length`. -/
theorem deserialize_zero_length_witness :
    scanner_deserialize ⟨[5], 1⟩ [9, 9] 0 = ⟨[5], 1⟩ :=
  deserialize_zero_length ⟨[5], 1⟩ [9, 9]

end Scanner
